/-
Verification of the MetaReasoner council backend (backend/council.py,
backend/storage.py) against its natural-language specification.

Strings are modelled as `List Char` (`Str`).  Python `re` character classes
`\d`, `\s` and `[A-Z]` are modelled over their ASCII meaning.  Python machine
floats are modelled as exact rationals: every numeric value appearing in the
verified properties (integer mock scores, the 0.5 self-weight, the 1000.0 Elo
base) is dyadic and small, so Python float arithmetic computes it exactly.
Recursive scanners use explicit fuel (always instantiated with the input
length, which is provably sufficient) so that all definitions reduce in the
kernel.
-/
import Mathlib

/-- Strings are lists of characters. -/
abbrev Str := List Char

/-- The literal marker searched for by `parse_ranking_from_text`. -/
def marker : Str := "FINAL RANKING:".toList

/-- ASCII whitespace, modelling Python's `str.strip` default set and the
regex class `\s` on ASCII input. -/
def pyIsSpace (c : Char) : Bool :=
  c = ' ' || c = '\t' || c = '\n' || c = '\r' || c = '\x0b' || c = '\x0c'

/-- Python `str.strip()`: remove leading and trailing whitespace. -/
def pyStrip (s : Str) : Str :=
  ((s.dropWhile pyIsSpace).reverse.dropWhile pyIsSpace).reverse

/-- Fuelled worker for Python `str.split(sep)` with `sep = marker`:
scan left to right; each occurrence of the separator ends the current part.
The fuel is always at least the length of the list, so the `0` case with a
non-empty list is never reached. -/
def pySplitGo : Nat → List Char → List (List Char)
  | 0, s => [s]
  | _ + 1, [] => [[]]
  | f + 1, c :: rest =>
    if marker.isPrefixOf (c :: rest) then
      [] :: pySplitGo f (List.drop (marker.length - 1) rest)
    else
      match pySplitGo f rest with
      | [] => [[c]]
      | p :: ps => (c :: p) :: ps

/-- Python `ranking_text.split("FINAL RANKING:")`. -/
def pySplit (s : Str) : List (List Char) := pySplitGo s.length s

/-- The literal part `"Response "` of the regexes used by the parser. -/
def respTok : Str := "Response ".toList

/-- One attempt of the regex `\d+\.\s*Response [A-Z]` anchored at the head of
the input.  Returns `(matched text, ranked letter, rest of input)`.  The
pattern has no productive backtracking (after the greedy `\d+` the next
character must be `'.'`, which is not a digit; after the greedy `\s*` the next
character must be `'R'`, which is not whitespace), so maximal munch is exact. -/
def matchNumbered (l : Str) : Option (Str × Char × Str) :=
  let ds := l.takeWhile Char.isDigit
  if ds = [] then none
  else
    match l.drop ds.length with
    | [] => none
    | c :: r1 =>
      if c = '.' then
        let ws := r1.takeWhile pyIsSpace
        let r2 := r1.drop ws.length
        if respTok.isPrefixOf r2 then
          match r2.drop respTok.length with
          | [] => none
          | u :: r3 =>
            if 'A' ≤ u ∧ u ≤ 'Z' then
              some (ds ++ c :: (ws ++ respTok ++ [u]), u, r3)
            else none
        else none
      else none

/-- Fuelled worker for `re.findall(r'\d+\.\s*Response [A-Z]', s)`: leftmost
non-overlapping matches, scanning left to right. -/
def findallGo : Nat → Str → List Str
  | 0, _ => []
  | _ + 1, [] => []
  | f + 1, c :: rest =>
    match matchNumbered (c :: rest) with
    | some (m, _, rest2) => m :: findallGo f rest2
    | none => findallGo f rest

/-- Python `re.findall(r'\d+\.\s*Response [A-Z]', s)`. -/
def findallNumbered (s : Str) : List Str := findallGo s.length s

/-- Fuelled worker for `re.search(r'Response [A-Z]', m)`: the leftmost match
of the literal `"Response "` followed by an ASCII uppercase letter. -/
def searchRespGo : Nat → Str → Option Str
  | 0, _ => none
  | _ + 1, [] => none
  | f + 1, c :: rest =>
    if respTok.isPrefixOf (c :: rest) then
      match (c :: rest).drop respTok.length with
      | u :: _ =>
        if 'A' ≤ u ∧ u ≤ 'Z' then some (respTok ++ [u])
        else searchRespGo f rest
      | [] => searchRespGo f rest
    else searchRespGo f rest

/-- Python `re.search(r'Response [A-Z]', m)`, returning `.group()`. -/
def searchResp (s : Str) : Option Str := searchRespGo s.length s

/-- Embedding of `parse_ranking_from_text` (council.py): if the literal
marker `"FINAL RANKING:"` occurs in the text, split on it, take the last
part, collect the matches of `\d+\.\s*Response [A-Z]` there, and return the
`Response <letter>` part of each match; otherwise return the empty list. -/
def parse_ranking_from_text (ranking_text : Str) : List Str :=
  if marker <:+: ranking_text then
    let parts := pySplit ranking_text
    if 2 ≤ parts.length then
      let ranking_section := parts.getLastD []
      let numbered_matches := findallNumbered ranking_section
      if ¬ numbered_matches.isEmpty then
        numbered_matches.map (fun m => (searchResp m).getD [])
      else []
    else []
  else []

/-- Specification-level reading of §4.2 step 3: scan the tail after the
marker and return directly, for each entry matching
`"<number>. Response <letter>"`, the token `"Response <letter>"`, in textual
order.  Stated from the spec's words; the theorems relate it to the
source-derived `parse_ranking_from_text`. -/
def specTokensGo : Nat → Str → List Str
  | 0, _ => []
  | _ + 1, [] => []
  | f + 1, c :: rest =>
    match matchNumbered (c :: rest) with
    | some (_, u, rest2) => (respTok ++ [u]) :: specTokensGo f rest2
    | none => specTokensGo f rest

/-- Tokens of all numbered ranking entries of a text, per the spec's words. -/
def specTokens (s : Str) : List Str := specTokensGo s.length s

/-! ## Dynamic values and the stage-2 rubric pipeline -/

/-- Values of the dynamic (JSON-like) Python fragment manipulated by the
evaluator pipeline: `json.loads` results and rubric entries.  Numbers are
exact rationals (Python ints and floats are not distinguished; every numeric
value relevant to the verified claims is exactly representable in both).
Dicts are association lists in key order with unique keys, as produced by
`json.loads`. -/
inductive PyVal : Type where
  | vnone : PyVal
  | vbool : Bool → PyVal
  | vnum : ℚ → PyVal
  | vstr : Str → PyVal
  | vlist : List PyVal → PyVal
  | vdict : List (Str × PyVal) → PyVal

/-- First-match lookup in a Python dict (keys are unique). -/
def dictGet? (d : List (Str × PyVal)) (k : Str) : Option PyVal :=
  match d with
  | [] => none
  | (k', v) :: rest => if k' = k then some v else dictGet? rest k

/-- Python `k in d`. -/
def dictHas (d : List (Str × PyVal)) (k : Str) : Bool := (dictGet? d k).isSome

/-- Python `d.get(k, default)`. -/
def dictGetD (d : List (Str × PyVal)) (k : Str) (dflt : PyVal) : PyVal :=
  (dictGet? d k).getD dflt

/-- Python truthiness. -/
def pyTruthy : PyVal → Bool
  | .vnone => false
  | .vbool b => b
  | .vnum q => if q = 0 then false else true
  | .vstr s => if s.isEmpty then false else true
  | .vlist l => if l.isEmpty then false else true
  | .vdict d => if d.isEmpty then false else true

/-- Numeric reading used by Python arithmetic and `float()` on rubric
fields: numbers are themselves and bools coerce (`True == 1`).  Other types
raise, modelled as `none`.  (A numeric string passed to `float()` would
parse in Python; rubric scores are numeric per §3, and string-typed scores
are modelled as errors.) -/
def pyNum? : PyVal → Option ℚ
  | .vnum q => some q
  | .vbool b => some (if b then 1 else 0)
  | _ => none

/-- Python `str()` as interpolated by `f"Response {…}"`.  Strings render as
themselves — the only case the verified claims exercise; non-string labels
render to a placeholder distinct from every real `Response <letter>` label
suffix. -/
def pyStr : PyVal → Str
  | .vstr s => s
  | .vnone => "None".toList
  | .vbool b => if b then "True".toList else "False".toList
  | .vnum _ => "<num>".toList
  | .vlist _ => "<list>".toList
  | .vdict _ => "<dict>".toList

/-- Option-to-exception conversion for modelled Python errors. -/
def toExc (o : Option ℚ) : Except Unit ℚ :=
  match o with
  | some q => .ok q
  | none => .error ()

/-- Sort key of a rubric entry (council.py line 125):
`(accuracy + reasoning + completeness + clarity) * confidence` with
`dict.get` defaults; errors on a non-dict entry or non-numeric field (Python
raises inside `sorted`, aborting the rubric-derived ranking). -/
def keyOf : PyVal → Except Unit ℚ
  | .vdict d =>
    match pyNum? (dictGetD d ("accuracy".toList) (.vnum 0)),
        pyNum? (dictGetD d ("reasoning".toList) (.vnum 0)),
        pyNum? (dictGetD d ("completeness".toList) (.vnum 0)),
        pyNum? (dictGetD d ("clarity".toList) (.vnum 0)),
        pyNum? (dictGetD d ("confidence".toList) (.vnum 1)) with
    | some a, some rsn, some cm, some cl, some cf => .ok ((a + rsn + cm + cl) * cf)
    | _, _, _, _, _ => .error ()
  | _ => .error ()

/-- Descending-by-key order modelling Python's stable
`sorted(…, reverse=True)`: `a` may come before `b` iff `key b ≤ key a`.  A
stable sort's output is unique, so Lean's stable insertion sort coincides
with Python's stable Timsort. -/
def rubricGE (a b : PyVal × ℚ) : Prop := b.2 ≤ a.2

instance : DecidableRel rubricGE :=
  fun a b => inferInstanceAs (Decidable (b.2 ≤ a.2))

instance : IsTotal (PyVal × ℚ) rubricGE := ⟨fun a b => le_total b.2 a.2⟩

instance : IsTrans (PyVal × ℚ) rubricGE := ⟨fun _ _ _ h1 h2 => le_trans h2 h1⟩

/-- The token `f"Response {ev.get('response_label')}"` built for a sorted
rubric entry that carries the field (council.py line 128). -/
def tokenOfEntry (ev : PyVal) : Str :=
  match ev with
  | .vdict d => respTok ++ pyStr (dictGetD d ("response_label".toList) .vnone)
  | _ => respTok ++ pyStr .vnone

/-- Left-to-right key computation over the rubric entries, stopping at the
first error (Python's `sorted` computes all keys before comparing). -/
def keysOfEvs : List PyVal → Except Unit (List ℚ)
  | [] => .ok []
  | ev :: rest =>
    match keyOf ev, keysOfEvs rest with
    | .ok k, .ok ks => .ok (k :: ks)
    | _, _ => .error ()

/-- The textual token kept for a sorted entry with a `response_label`. -/
def entryToken? (p : PyVal × ℚ) : Option Str :=
  match p.1 with
  | .vdict d =>
    if dictHas d ("response_label".toList) then some (tokenOfEntry p.1) else none
  | _ => none

/-- The rubric-derived ordinal ranking (council.py lines 122–128): compute
all sort keys (as Python's `sorted` does before comparing), stable-sort the
entries descending by key, keep the entries that have a `response_label`
field, and render their tokens.  Errors exactly where Python's `sorted`
would raise. -/
def rubricRanking (rubric : PyVal) : Except Unit (List Str) :=
  match rubric with
  | .vlist evs =>
    match keysOfEvs evs with
    | .ok ks => .ok ((List.insertionSort rubricGE (evs.zip ks)).filterMap entryToken?)
    | .error e => .error e
  | _ => .error ()

/-- The fence-stripping prelude of `stage2_collect_rankings`
(council.py lines 108–116). -/
def cleanText (full_text : Str) : Str :=
  let c1 := pyStrip full_text
  let c2 :=
    if ("```json".toList).isPrefixOf c1 then c1.drop 7
    else if ("```".toList).isPrefixOf c1 then c1.drop 3
    else c1
  let c3 := if ("```".toList).isSuffixOf c2 then c2.take (c2.length - 3) else c2
  pyStrip c3

/-- One evaluator's entry of `stage2_results`. -/
structure S2Result where
  model : Str
  ranking : Str
  parsed_ranking : List Str
  rubric : Option PyVal

/-- Processing of one successful stage-2 reply (council.py lines 100–140).
`loads` is the `json.loads` oracle: the parse of the cleaned text, or `none`
for a `JSONDecodeError`.  When the rubric-derived ranking raises, `rubric`
keeps the value already assigned inside the `try` block. -/
def processReply (loads : Str → Option PyVal) (model full_text : Str) : S2Result :=
  let clean := cleanText full_text
  let rp : Option PyVal × List Str :=
    match loads clean with
    | none => (none, [])
    | some data =>
      match data with
      | .vdict d =>
        if dictHas d ("evaluations".toList) then
          let rb := dictGetD d ("evaluations".toList) .vnone
          match rubricRanking rb with
          | .ok tokens => (some rb, tokens)
          | .error _ => (some rb, [])
        else (none, [])
      | _ => (none, [])
  let parsed_ranking :=
    if rp.2.isEmpty then parse_ranking_from_text full_text else rp.2
  { model := model, ranking := full_text, parsed_ranking := parsed_ranking,
    rubric := rp.1 }

/-! ## Rounds 1–3 and the council driver -/

/-- One successful stage-1 response. -/
structure S1Result where
  model : Str
  response : Str

/-- Oracle for the network and `json` collaborators of one query
(openrouter.py is not among the analysed sources).  Modelled from the spec:
§6 `invokeOne`/`invokeMany` return one optional result per model, absent on
timeout/error, never throwing; `invokeStreaming` yields a finite fragment
sequence.  `routerReply` is the classifier call's content, `reply1`/`reply2`
the per-model round contents, `loads` the `json.loads` result on a cleaned
reply, `chairmanChunks` the synthesis stream. -/
structure Env where
  routerReply : Option Str
  reply1 : Str → Option Str
  reply2 : Str → Option Str
  loads : Str → Option PyVal
  chairmanChunks : List Str

/-- Modelled from the spec: §6 `invokeMany` — a mapping from model to
optional result, semantically concurrent `invokeOne` calls; consumed in
panel order (§4.1 fixes downstream order as the panel order filtered to
successes), one dict key per distinct model. -/
def invokeMany (reply : Str → Option Str) (models : List Str) :
    List (Str × Option Str) :=
  models.eraseDups.map (fun m => (m, reply m))

/-- Embedding of `stage1_collect_responses` (council.py lines 11–42): keep
the successful replies, with their `content` text, in panel order. -/
def stage1_collect_responses (env : Env) (models : List Str) : List S1Result :=
  (invokeMany env.reply1 models).filterMap (fun p =>
    match p.2 with
    | some content => some { model := p.1, response := content }
    | none => none)

/-- The anonymised label of the `i`-th stage-1 success:
`f"Response {chr(65 + i)}"`. -/
def labelFor (i : Nat) : Str := respTok ++ [Char.ofNat (65 + i)]

/-- The `label_to_model` mapping of `stage2_collect_rankings`
(council.py lines 62–68), in label order. -/
def mkLabelToModel (stage1_results : List S1Result) : List (Str × Str) :=
  stage1_results.enum.map (fun p => (labelFor p.1, p.2.model))

/-- Embedding of `stage2_collect_rankings` (council.py lines 46–142): label
bookkeeping plus per-reply parsing; the prompt text itself influences no
verified claim and lives inside the oracle. -/
def stage2_collect_rankings (env : Env) (stage1_results : List S1Result)
    (models : List Str) : List S2Result × List (Str × Str) :=
  ((invokeMany env.reply2 models).filterMap (fun p =>
      match p.2 with
      | some full_text => some (processReply env.loads p.1 full_text)
      | none => none),
    mkLabelToModel stage1_results)

/-! ## Aggregate scoring -/

/-- Lookup in the `defaultdict(float)` score accumulator (default `0`),
represented in key insertion order. -/
def scoreOf (l : List (Str × ℚ)) (k : Str) : ℚ :=
  match l with
  | [] => 0
  | (k', v) :: rest => if k' = k then v else scoreOf rest k

/-- `d[k] += v` on the score accumulator. -/
def addScore (l : List (Str × ℚ)) (k : Str) (v : ℚ) : List (Str × ℚ) :=
  match l with
  | [] => [(k, v)]
  | (k', v') :: rest =>
    if k' = k then (k', v' + v) :: rest else (k', v') :: addScore rest k v

/-- `d[k] += 1` on a `defaultdict(int)` whose iteration order is never
observed, modelled as a plain function. -/
def bumpCount (f : Str → ℕ) (k : Str) : Str → ℕ :=
  fun x => if x = k then f x + 1 else f x

/-- Lookup in `label_to_model`. -/
def lookupStr (l : List (Str × Str)) (k : Str) : Option Str :=
  match l with
  | [] => none
  | (k', v) :: rest => if k' = k then some v else lookupStr rest k

/-- Accumulator state of `calculate_aggregate_rankings`. -/
structure AggState where
  scores : List (Str × ℚ)
  counts : Str → ℕ

/-- One rubric entry's contribution (council.py lines 262–278).  A non-dict
entry raises (`ev.get` on it fails), uncaught. -/
def aggRubricEntry (l2m : List (Str × Str)) (evaluator : Str) (st : AggState)
    (ev : PyVal) : Except Unit AggState :=
  match ev with
  | .vdict d =>
    let label := respTok ++ pyStr (dictGetD d ("response_label".toList) (.vstr []))
    match lookupStr l2m label with
    | some subject =>
      match pyNum? (dictGetD d ("accuracy".toList) (.vnum 0)),
          pyNum? (dictGetD d ("reasoning".toList) (.vnum 0)),
          pyNum? (dictGetD d ("completeness".toList) (.vnum 0)),
          pyNum? (dictGetD d ("clarity".toList) (.vnum 0)),
          pyNum? (dictGetD d ("confidence".toList) (.vnum 1)) with
      | some acc, some rsn, some cm, some cl, some cf =>
        let raw := (acc + rsn + cm + cl) * cf
        let w : ℚ := if evaluator = subject then 1/2 else 1
        .ok { scores := addScore st.scores subject (raw * w),
              counts := bumpCount st.counts subject }
      | _, _, _, _, _ => .error ()
    | none => .ok st
  | _ => .error ()

/-- The ordinal ranking the scorer uses for an evaluator without a usable
rubric: the stored `parsed_ranking`, or a re-parse of the raw text when that
is empty (council.py lines 281–283). -/
def effRanking (r : S2Result) : List Str :=
  if r.parsed_ranking.isEmpty then parse_ranking_from_text r.ranking
  else r.parsed_ranking

/-- One fallback-ranking position's contribution (council.py lines 285–292):
position `p` (1-based) of `n = len(label_to_model)` options is worth
`(n - p + 1) * 10`, self-weighted `0.5`. -/
def aggFallbackEntry (l2m : List (Str × Str)) (evaluator : Str)
    (num_options : Nat) (st : AggState) (pl : Nat × Str) : AggState :=
  match lookupStr l2m pl.2 with
  | some subject =>
    let w : ℚ := if evaluator = subject then 1/2 else 1
    let mock : ℚ := (((num_options : ℤ) - (pl.1 : ℤ) + 1) * 10 : ℤ)
    { scores := addScore st.scores subject (mock * w),
      counts := bumpCount st.counts subject }
  | none => st

/-- Python `if rubric:` on `ranking.get('rubric')`. -/
def rubricTruthy (r : S2Result) : Bool :=
  match r.rubric with
  | some rb => pyTruthy rb
  | none => false

/-- The rubric branch's fold over the entries, stopping at the first
uncaught exception. -/
def aggRubricFold (l2m : List (Str × Str)) (evaluator : Str) :
    AggState → List PyVal → Except Unit AggState
  | st, [] => .ok st
  | st, ev :: rest =>
    match aggRubricEntry l2m evaluator st ev with
    | .ok st' => aggRubricFold l2m evaluator st' rest
    | .error e => .error e

/-- Scoring contribution of one evaluator's stage-2 output
(council.py lines 257–292). -/
def aggStep (l2m : List (Str × Str)) (num_options : Nat) (st : AggState)
    (r : S2Result) : Except Unit AggState :=
  if rubricTruthy r then
    match r.rubric with
    | some (.vlist evs) => aggRubricFold l2m r.model st evs
    | _ => .error ()
  else
    .ok ((List.enumFrom 1 (effRanking r)).foldl
      (aggFallbackEntry l2m r.model num_options) st)

/-- Floor of a rational. -/
def ratFloor (q : ℚ) : ℤ := Int.fdiv q.num (q.den : ℤ)

/-- Python `round(x)` on an exact value: round half to even. -/
def pyRound (q : ℚ) : ℤ :=
  let f := ratFloor q
  let frac := q - (f : ℚ)
  if frac < 1/2 then f
  else if 1/2 < frac then f + 1
  else if f % 2 = 0 then f else f + 1

/-- Python `round(x, 2)` on exact dyadic values. -/
def pyRound2 (q : ℚ) : ℚ := (pyRound (q * 100) : ℚ) / 100

/-- One line of the aggregate output (council.py lines 296–301;
`average_rank` deliberately duplicates `total_score` in the source). -/
structure AggEntry where
  model : Str
  total_score : ℚ
  average_rank : ℚ
  rankings_count : ℕ
deriving DecidableEq

/-- Descending order on `total_score` for the final stable sort. -/
def aggGE (a b : AggEntry) : Prop := b.total_score ≤ a.total_score

instance : DecidableRel aggGE :=
  fun a b => inferInstanceAs (Decidable (b.total_score ≤ a.total_score))

instance : IsTotal AggEntry aggGE := ⟨fun a b => le_total b.total_score a.total_score⟩

instance : IsTrans AggEntry aggGE := ⟨fun _ _ _ h1 h2 => le_trans h2 h1⟩

/-- The evaluator fold of the scorer, stopping at the first uncaught
exception. -/
def aggFold (l2m : List (Str × Str)) :
    AggState → List S2Result → Except Unit AggState
  | st, [] => .ok st
  | st, r :: rest =>
    match aggStep l2m l2m.length st r with
    | .ok st' => aggFold l2m st' rest
    | .error e => .error e

/-- Embedding of `calculate_aggregate_rankings` (council.py lines 235–306).
`num_options = len(label_to_model)`.  Python exceptions on malformed rubric
values are uncaught there, hence `.error`. -/
def calculate_aggregate_rankings (stage2_results : List S2Result)
    (l2m : List (Str × Str)) : Except Unit (List AggEntry) :=
  match aggFold l2m ⟨[], fun _ => 0⟩ stage2_results with
  | .error e => .error e
  | .ok st =>
    .ok (List.insertionSort aggGE (st.scores.map (fun p =>
      { model := p.1, total_score := pyRound2 p.2, average_rank := pyRound2 p.2,
        rankings_count := st.counts p.1 : AggEntry })))

/-! ## Council configuration, routing and the driver -/

/-- config.py `COUNCIL_MODELS`. -/
def COUNCIL_MODELS : List Str :=
  ["openai/gpt-5.1".toList, "google/gemini-3-pro-preview".toList,
   "anthropic/claude-sonnet-4.5".toList, "x-ai/grok-4".toList]

/-- config.py `COUNCIL_PRESETS`, in key insertion order. -/
def COUNCIL_PRESETS : List (Str × List Str) :=
  [("CODING".toList,
    ["deepseek/deepseek-coder".toList, "anthropic/claude-3.5-sonnet".toList,
     "openai/gpt-4o".toList]),
   ("MATH".toList,
    ["openai/o1-mini".toList, "google/gemini-1.5-pro".toList,
     "anthropic/claude-3.5-sonnet".toList]),
   ("CREATIVE_WRITING".toList,
    ["anthropic/claude-3-opus".toList, "google/gemini-2.5-flash".toList,
     "mistralai/mixtral-8x7b-instruct".toList]),
   ("FACTUAL_RESEARCH".toList,
    ["perplexity/llama-3.1-sonar-large-128k-online".toList,
     "openai/gpt-4o".toList, "x-ai/grok-2".toList]),
   ("REASONING".toList,
    ["openai/o1".toList, "anthropic/claude-3.5-sonnet".toList,
     "google/gemini-1.5-pro".toList]),
   ("GENERAL".toList, COUNCIL_MODELS)]

/-- config.py `CHAIRMAN_MODEL`. -/
def CHAIRMAN_MODEL : Str := "google/gemini-3-pro-preview".toList

/-- Python `str.upper()` (ASCII). -/
def pyUpper (s : Str) : Str := s.map Char.toUpper

/-- Python `content.split('\n')[0]`. -/
def firstLine (s : Str) : Str := s.takeWhile (fun c => decide (c ≠ '\n'))

/-- Embedding of `classify_query` (council.py lines 348–373); the router
model's reply is the oracle `routerReply` (absent models a failed call). -/
def classify_query (env : Env) (user_query : Str) : Str :=
  match env.routerReply with
  | some text =>
    let content0 := pyUpper (pyStrip text)
    let content :=
      if content0.contains '\n' then pyStrip (firstLine content0) else content0
    match (COUNCIL_PRESETS.map Prod.fst).find? (fun cat => decide (cat <:+: content)) with
    | some cat => cat
    | none => "GENERAL".toList
  | none => "GENERAL".toList

/-- config.py `COUNCIL_PRESETS.get(category, COUNCIL_PRESETS["GENERAL"])`. -/
def presetFor (cat : Str) : List Str :=
  match COUNCIL_PRESETS.find? (fun p => decide (p.1 = cat)) with
  | some p => p.2
  | none => COUNCIL_MODELS

/-- Embedding of `get_council_for_query` (council.py lines 377–383):
`none` models Python `None`; `Python`'s `user_override and
len(user_override) > 0` is false for both `None` and `[]`. -/
def get_council_for_query (env : Env) (user_query : Str)
    (user_override : Option (List Str)) : List Str × Str :=
  match user_override with
  | some ov =>
    if 0 < ov.length then (ov, "MANUAL_OVERRIDE".toList)
    else (presetFor (classify_query env user_query), classify_query env user_query)
  | none => (presetFor (classify_query env user_query), classify_query env user_query)

/-- The buffered result of `stage3_synthesize_final` as consumed by
`run_full_council`: the terminal sentinel with the concatenated stream. -/
structure Stage3Result where
  model : Str
  response : Str
  done : Bool

/-- Round 3, buffered (council.py lines 146–203 and 421–428). -/
def stage3_final (env : Env) : Stage3Result :=
  { model := CHAIRMAN_MODEL,
    response := env.chairmanChunks.foldl (fun a c => a ++ c) [],
    done := true }

/-- The driver's metadata dict; `none` models an absent key. -/
structure Metadata where
  label_to_model : Option (List (Str × Str))
  aggregate_rankings : Option (List AggEntry)
  detected_category : Str

/-- Embedding of `run_full_council` (council.py lines 387–437).  The error
result is the literal two-key dict of line 407 (its absent `done` key is
modelled as `false`); uncaught exceptions of the aggregate scorer
propagate. -/
def run_full_council (env : Env) (user_query : Str)
    (council_models : Option (List Str)) :
    Except Unit (List S1Result × List S2Result × Stage3Result × Metadata) :=
  let rc := get_council_for_query env user_query council_models
  let stage1_results := stage1_collect_responses env rc.1
  if stage1_results.length < 2 then
    .ok (stage1_results, [],
      { model := "error".toList,
        response :=
          "At least two models are required for consensus. Please try again.".toList,
        done := false },
      { label_to_model := none, aggregate_rankings := none,
        detected_category := rc.2 })
  else
    let s2 := stage2_collect_rankings env stage1_results rc.1
    match calculate_aggregate_rankings s2.1 s2.2 with
    | .error e => .error e
    | .ok aggregate_rankings =>
      .ok (stage1_results, s2.1, stage3_final env,
        { label_to_model := some s2.2, aggregate_rankings := some aggregate_rankings,
          detected_category := rc.2 })

/-! ## The Elo rating engine (storage.py) -/

/-- One row of the `rankings` table. -/
structure RankRow where
  message_id : ℤ
  evaluator_model : Str
  subject_model : Str
  rank_position : ℤ
deriving DecidableEq

/-- One stage-1 row of the `model_responses` table. -/
structure Stage1Row where
  message_id : ℤ
  model : Str
deriving DecidableEq

/-- One line of the rating output. -/
structure EloEntry where
  model : Str
  elo : ℤ
  wins : ℕ
  losses : ℕ
  appearances : ℕ
deriving DecidableEq

/-- Bytewise (SQLite BINARY) strict order on strings. -/
def strLtB : Str → Str → Bool
  | [], [] => false
  | [], _ :: _ => true
  | _ :: _, [] => false
  | a :: as, b :: bs => if a < b then true else if b < a then false else strLtB as bs

/-- The `ORDER BY message_id, evaluator_model, rank_position ASC` retrieval
order. -/
def rowLe (x y : RankRow) : Prop :=
  x.message_id < y.message_id ∨
    (x.message_id = y.message_id ∧
      (strLtB x.evaluator_model y.evaluator_model = true ∨
        (x.evaluator_model = y.evaluator_model ∧ x.rank_position ≤ y.rank_position)))

instance : DecidableRel rowLe := fun x y => by
  unfold rowLe
  infer_instance

/-- The SQL fetch of storage.py lines 393–400: keep non-sentinel rows
(`rank_position != 99`) in retrieval order. -/
def fetchRankingRows (rows : List RankRow) : List RankRow :=
  List.insertionSort rowLe (rows.filter (fun r => decide (r.rank_position ≠ 99)))

/-- Accumulator of `calculate_elo_ratings`: the `elo` defaultdict in key
insertion order, and the win/loss counters (whose iteration order is never
observed). -/
structure EloState where
  elo : List (Str × ℚ)
  wins : Str → ℕ
  losses : Str → ℕ

/-- `defaultdict(lambda: 1000.0)` access: inserts the base rating on first
reference. -/
def eloTouch (l : List (Str × ℚ)) (k : Str) : List (Str × ℚ) :=
  match l with
  | [] => [(k, 1000)]
  | (k', v) :: rest => if k' = k then (k', v) :: rest else (k', v) :: eloTouch rest k

/-- Read a rating (the key is always present when read). -/
def eloGet (l : List (Str × ℚ)) (k : Str) : ℚ :=
  match l with
  | [] => 1000
  | (k', v) :: rest => if k' = k then v else eloGet rest k

/-- Assignment `elo[k] = v`. -/
def eloSet (l : List (Str × ℚ)) (k : Str) (v : ℚ) : List (Str × ℚ) :=
  match l with
  | [] => [(k, v)]
  | (k', v') :: rest =>
    if k' = k then (k', v) :: rest else (k', v') :: eloSet rest k v

/-- One inner-loop iteration of `calculate_elo_ratings`
(storage.py lines 430–454) for a subject pair, `ra` sorted before `rb`.
`p10` abstracts the float computation `10.0 ** x` (transcendental; every
verified claim holds for an arbitrary such function, so the theorems
quantify over it). -/
def eloPairStep (p10 : ℚ → ℚ) (st : EloState) (ra rb : RankRow) : EloState :=
  if ra.rank_position = rb.rank_position then st
  else
    let winner :=
      if ra.rank_position < rb.rank_position then ra.subject_model else rb.subject_model
    let loser :=
      if ra.rank_position < rb.rank_position then rb.subject_model else ra.subject_model
    let elo1 := eloTouch st.elo winner
    let elo2 := eloTouch elo1 loser
    let rating_w := eloGet elo2 winner
    let rating_l := eloGet elo2 loser
    let expected_w := 1 / (1 + p10 ((rating_l - rating_w) / 400))
    let expected_l := 1 / (1 + p10 ((rating_w - rating_l) / 400))
    let elo3 := eloSet elo2 winner (rating_w + 32 * (1 - expected_w))
    let elo4 := eloSet elo3 loser (rating_l + 32 * (0 - expected_l))
    { elo := elo4,
      wins := bumpCount st.wins winner,
      losses := bumpCount st.losses loser }

/-- The ordered pairs `i < j` of the double loop, in iteration order. -/
def orderedPairs : List RankRow → List (RankRow × RankRow)
  | [] => []
  | x :: xs => xs.map (fun y => (x, y)) ++ orderedPairs xs

/-- Processing of one `(message_id, evaluator)` group. -/
def eloGroupStep (p10 : ℚ → ℚ) (st : EloState) (g : List RankRow) : EloState :=
  (orderedPairs g).foldl (fun s p => eloPairStep p10 s p.1 p.2) st

/-- The grouping key. -/
def groupKey (r : RankRow) : ℤ × Str := (r.message_id, r.evaluator_model)

/-- The `defaultdict(list)` grouping's key iteration order: first
encounter. -/
def groupKeys (rows : List RankRow) : List (ℤ × Str) :=
  (rows.map groupKey).eraseDups

/-- Descending order on the rounded rating for the output sort. -/
def eloGE (a b : EloEntry) : Prop := b.elo ≤ a.elo

instance : DecidableRel eloGE :=
  fun a b => inferInstanceAs (Decidable (b.elo ≤ a.elo))

/-- Embedding of `calculate_elo_ratings` (storage.py lines 385–468) as a
pure function of the persisted tables: `rows` is the `rankings` table,
`stage1_rows` the round-1 `model_responses` rows. -/
def calculate_elo_ratings (p10 : ℚ → ℚ) (rows : List RankRow)
    (stage1_rows : List Stage1Row) : List EloEntry :=
  let fetched := fetchRankingRows rows
  let st0 : EloState :=
    { elo := stage1_rows.foldl (fun l r => eloTouch l r.model) [],
      wins := fun _ => 0, losses := fun _ => 0 }
  let st := (groupKeys fetched).foldl
    (fun s k => eloGroupStep p10 s (fetched.filter (fun r => decide (groupKey r = k)))) st0
  let results := st.elo.map (fun p =>
    { model := p.1, elo := pyRound p.2, wins := st.wins p.1, losses := st.losses p.1,
      appearances := (stage1_rows.filter (fun r => decide (r.model = p.1))).length
      : EloEntry })
  List.insertionSort eloGE results

/-! ## Specification-side definitions (§4.3, §4.2) used by the theorems -/

/-- Specification §4.3 fallback accumulation, stated from the spec's words:
the total mock score an evaluator's ordinal ranking contributes to model
`m`; position `p` (1-based) of `n` candidates is worth `(n - p + 1) * 10`,
weighted `0.5` when the evaluator is the subject model and `1.0`
otherwise. -/
def fallbackContribution (r : S2Result) (l2m : List (Str × Str)) (n : Nat)
    (m : Str) : ℚ :=
  ((List.enumFrom 1 (effRanking r)).map (fun pl =>
    if lookupStr l2m pl.2 = some m then
      ((((n : ℤ) - (pl.1 : ℤ) + 1) * 10 : ℤ) : ℚ) * (if r.model = m then 1/2 else 1)
    else 0)).sum

/-- The label text an aggregate rubric entry resolves
(council.py line 263). -/
def labelOfEv : PyVal → Str
  | .vdict d => respTok ++ pyStr (dictGetD d ("response_label".toList) (.vstr []))
  | _ => []

/-- The labels of an evaluator's carried rubric entries. -/
def rubricLabels (r : S2Result) : List Str :=
  match r.rubric with
  | some (.vlist evs) => evs.map labelOfEv
  | _ => []

/-- Whether one evaluator's stage-2 output references candidate model `m`
through the label map: some rubric entry's label, or some entry of the
ordinal ranking it would be scored by, resolves to `m`. -/
def refsModel (l2m : List (Str × Str)) (r : S2Result) (m : Str) : Prop :=
  (∃ lab ∈ rubricLabels r, lookupStr l2m lab = some m) ∨
    ∃ lab ∈ effRanking r, lookupStr l2m lab = some m

/-- Whether a value is a Python dict. -/
def isDict : PyVal → Bool
  | .vdict _ => true
  | _ => false

/-- Whether a rubric entry carries a `response_label` field. -/
def hasLabelB : PyVal → Bool
  | .vdict d => dictHas d ("response_label".toList)
  | _ => false

/-! Basic facts about the marker and the single-match attempt. -/

theorem marker_ne_nil : marker ≠ [] := by decide

theorem marker_len : marker.length = 14 := by decide

set_option maxRecDepth 4000 in
/-- The marker has no nontrivial border, hence two of its occurrences in a
text can never overlap. -/
theorem marker_no_border : ∀ j : Fin 14, 0 < j.val →
    List.drop j.val marker ≠ List.take (14 - j.val) marker := by decide

/-- Anatomy of a successful single-match attempt of
`\d+\.\s*Response [A-Z]`. -/
theorem matchNumbered_some {l m r : Str} {u : Char}
    (h : matchNumbered l = some (m, u, r)) :
    l = m ++ r ∧
      ∃ ds ws, m = ds ++ '.' :: (ws ++ respTok ++ [u]) ∧ ds ≠ [] ∧
        (∀ c ∈ ds, Char.isDigit c) ∧ ∀ c ∈ ws, pyIsSpace c := by
  simp only [matchNumbered] at h
  by_cases hne : l.takeWhile Char.isDigit = []
  · simp [hne] at h
  · rw [if_neg hne] at h
    obtain ⟨t, ht⟩ := List.takeWhile_prefix (l := l) Char.isDigit
    have hdropt : l.drop (l.takeWhile Char.isDigit).length = t := by
      have h0 : List.drop (l.takeWhile Char.isDigit).length
          (l.takeWhile Char.isDigit ++ t) = t := List.drop_left _ _
      rwa [ht] at h0
    rw [hdropt] at h
    cases t with
    | nil => simp at h
    | cons c r1 =>
      dsimp only at h
      by_cases hc : c = '.'
      · rw [if_pos hc] at h
        subst hc
        obtain ⟨t2, ht2⟩ := List.takeWhile_prefix (l := r1) pyIsSpace
        have hdrop2 : r1.drop (r1.takeWhile pyIsSpace).length = t2 := by
          have h0 : List.drop (r1.takeWhile pyIsSpace).length
              (r1.takeWhile pyIsSpace ++ t2) = t2 := List.drop_left _ _
          rwa [ht2] at h0
        rw [hdrop2] at h
        by_cases hpre : respTok.isPrefixOf t2
        · rw [if_pos hpre] at h
          obtain ⟨t3, ht3⟩ := List.isPrefixOf_iff_prefix.mp hpre
          have hdrop3 : t2.drop respTok.length = t3 := by
            have h0 : List.drop respTok.length (respTok ++ t3) = t3 := List.drop_left _ _
            rwa [ht3] at h0
          rw [hdrop3] at h
          cases t3 with
          | nil => simp at h
          | cons u' r3 =>
            dsimp only at h
            by_cases hu : 'A' ≤ u' ∧ u' ≤ 'Z'
            · rw [if_pos hu] at h
              have hinj := Option.some.inj h
              have hm : List.takeWhile Char.isDigit l ++
                  '.' :: (List.takeWhile pyIsSpace r1 ++ respTok ++ [u']) = m :=
                congrArg Prod.fst hinj
              have hu2 : u' = u := congrArg (fun x => x.2.1) hinj
              have hr2 : r3 = r := congrArg (fun x => x.2.2) hinj
              refine ⟨?_, l.takeWhile Char.isDigit, r1.takeWhile pyIsSpace, ?_, hne,
                fun c hc => List.mem_takeWhile_imp hc,
                fun c hc => List.mem_takeWhile_imp hc⟩
              · rw [← hm, ← hr2]
                have e1 : (List.takeWhile Char.isDigit l ++
                      '.' :: (List.takeWhile pyIsSpace r1 ++ respTok ++ [u'])) ++ r3 =
                    List.takeWhile Char.isDigit l ++
                      '.' :: (List.takeWhile pyIsSpace r1 ++ (respTok ++ u' :: r3)) := by
                  simp [List.append_assoc]
                rw [e1, ht3, ht2, ht]
              · rw [← hm, ← hu2]
            · rw [if_neg hu] at h
              exact absurd h (by simp)
        · rw [if_neg hpre] at h
          exact absurd h (by simp)
      · rw [if_neg hc] at h
        exact absurd h (by simp)

/-- A successful match consumes at least one input character. -/
theorem matchNumbered_rest_lt {l m r : Str} {u : Char}
    (h : matchNumbered l = some (m, u, r)) : r.length < l.length := by
  obtain ⟨hl, ds, ws, hm, hne, -, -⟩ := matchNumbered_some h
  have hmlen : 0 < m.length := by
    subst hm
    cases ds with
    | nil => exact absurd rfl hne
    | cons a as => simp
  have : l.length = m.length + r.length := by rw [hl]; exact List.length_append m r
  omega

/-! Properties of the embedded `split("FINAL RANKING:")`. -/

theorem pySplitGo_prefix_step (f : Nat) (s : Str) (h : marker.isPrefixOf s = true) :
    pySplitGo (f + 1) s = [] :: pySplitGo f (List.drop marker.length s) := by
  cases s with
  | nil => exact absurd h (by decide)
  | cons c rest =>
    simp only [pySplitGo, if_pos h]
    rw [marker_len]
    rfl

theorem pySplitGo_cons_step (f : Nat) (c : Char) (rest : Str)
    (h : ¬ marker.isPrefixOf (c :: rest) = true) :
    pySplitGo (f + 1) (c :: rest) =
      match pySplitGo f rest with
      | [] => [[c]]
      | p :: ps => (c :: p) :: ps := by
  simp only [pySplitGo, if_neg h]

theorem pySplitGo_ne_nil : ∀ (f : Nat) (s : Str), pySplitGo f s ≠ [] := by
  intro f
  induction f with
  | zero => intro s; simp [pySplitGo]
  | succ f ih =>
    intro s
    cases s with
    | nil => simp [pySplitGo]
    | cons c rest =>
      by_cases h : marker.isPrefixOf (c :: rest) = true
      · rw [pySplitGo_prefix_step f _ h]
        simp
      · rw [pySplitGo_cons_step f c rest h]
        cases hr : pySplitGo f rest with
        | nil => simp
        | cons p ps => simp

theorem pySplitGo_no_marker : ∀ (f : Nat) (s : Str), s.length ≤ f →
    ¬ marker <:+: s → pySplitGo f s = [s] := by
  intro f
  induction f with
  | zero =>
    intro s _ _
    rfl
  | succ f ih =>
    intro s hlen hni
    cases s with
    | nil => rfl
    | cons c rest =>
      have hp : ¬ marker.isPrefixOf (c :: rest) = true := by
        intro hp
        exact hni (List.isPrefixOf_iff_prefix.mp hp).isInfix
      rw [pySplitGo_cons_step f c rest hp]
      have hrest : ¬ marker <:+: rest := by
        intro hr
        exact hni (hr.trans (List.suffix_cons c rest).isInfix)
      rw [ih rest (by simp at hlen; omega) hrest]

theorem pySplitGo_two_le : ∀ (f : Nat) (s : Str), s.length ≤ f →
    marker <:+: s → 2 ≤ (pySplitGo f s).length := by
  intro f
  induction f with
  | zero =>
    intro s hlen hin
    have : s = [] := List.eq_nil_of_length_eq_zero (Nat.le_zero.mp hlen)
    subst this
    have := List.eq_nil_of_infix_nil hin
    exact absurd this marker_ne_nil
  | succ f ih =>
    intro s hlen hin
    cases s with
    | nil =>
      have := List.eq_nil_of_infix_nil hin
      exact absurd this marker_ne_nil
    | cons c rest =>
      by_cases hp : marker.isPrefixOf (c :: rest) = true
      · rw [pySplitGo_prefix_step f _ hp]
        have := pySplitGo_ne_nil f (List.drop marker.length (c :: rest))
        cases hps : pySplitGo f (List.drop marker.length (c :: rest)) with
        | nil => exact absurd hps this
        | cons p ps => simp
      · rw [pySplitGo_cons_step f c rest hp]
        have hrest : marker <:+: rest := by
          rcases List.infix_cons_iff.mp hin with h | h
          · exact absurd (List.isPrefixOf_iff_prefix.mpr h) hp
          · exact h
        have h2 := ih rest (by simp at hlen; omega) hrest
        cases hps : pySplitGo f rest with
        | nil => exact absurd hps (pySplitGo_ne_nil f rest)
        | cons p ps =>
          rw [hps] at h2
          simp at h2 ⊢
          omega

theorem getLastD_congr {α : Type} (l : List α) (a b : α) (h : l ≠ []) :
    l.getLastD a = l.getLastD b := by
  cases l with
  | nil => exact absurd rfl h
  | cons x xs =>
    cases xs with
    | nil => rfl
    | cons y ys => simp only [List.getLastD_cons]

/-- The last part produced by `split("FINAL RANKING:")` is exactly the text
after the *last* occurrence of the marker (here expressed by decomposing the
input as `pre ++ marker ++ post` with no marker occurrence inside `post`:
overlapping occurrences are impossible because the marker has no border). -/
theorem pySplitGo_getLastD : ∀ (f : Nat) (pre post : Str),
    (pre ++ (marker ++ post)).length ≤ f → ¬ marker <:+: post →
    (pySplitGo f (pre ++ (marker ++ post))).getLastD [] = post := by
  intro f
  induction f with
  | zero =>
    intro pre post hlen _
    exfalso
    have h14 : 14 ≤ (pre ++ (marker ++ post)).length := by
      simp [List.length_append, marker_len]
      omega
    omega
  | succ f ih =>
    intro pre post hlen hni
    cases pre with
    | nil =>
      rw [List.nil_append]
      have hp : marker.isPrefixOf (marker ++ post) = true :=
        List.isPrefixOf_iff_prefix.mpr ⟨post, rfl⟩
      rw [pySplitGo_prefix_step f _ hp, List.getLastD_cons, List.drop_left]
      rw [pySplitGo_no_marker f post
        (by simp [List.length_append, marker_len] at hlen; omega) hni]
      rfl
    | cons c pre' =>
      by_cases hp : marker.isPrefixOf ((c :: pre') ++ (marker ++ post)) = true
      · rcases Nat.lt_or_ge (c :: pre').length 14 with hk | hk
        · exfalso
          obtain ⟨t, ht⟩ := List.isPrefixOf_iff_prefix.mp hp
          have hkpos : 0 < (c :: pre').length := by simp
          have h14 : List.take marker.length ((c :: pre') ++ (marker ++ post)) = marker := by
            rw [← ht]
            exact List.take_left marker t
          have hdropk : List.drop (c :: pre').length ((c :: pre') ++ (marker ++ post)) =
              marker ++ post :=
            List.drop_left (c :: pre') (marker ++ post)
          have e1 : List.drop (c :: pre').length marker =
              List.take (marker.length - (c :: pre').length) (marker ++ post) := by
            have h2 := List.drop_take marker.length (c :: pre').length
              ((c :: pre') ++ (marker ++ post))
            rw [h14, hdropk] at h2
            exact h2
          have e2 : List.take (marker.length - (c :: pre').length) (marker ++ post) =
              List.take (marker.length - (c :: pre').length) marker :=
            List.take_append_of_le_length (by rw [marker_len]; omega)
          have e3 : List.drop (c :: pre').length marker =
              List.take (14 - (c :: pre').length) marker := by
            rw [e1, e2, marker_len]
          exact marker_no_border ⟨(c :: pre').length, hk⟩ hkpos e3
        · rw [pySplitGo_prefix_step f _ hp, List.getLastD_cons]
          have hsplit : List.drop marker.length ((c :: pre') ++ (marker ++ post)) =
              (List.drop marker.length (c :: pre')) ++ (marker ++ post) := by
            rw [List.drop_append_eq_append_drop]
            have h0 : marker.length - (c :: pre').length = 0 := by rw [marker_len]; omega
            rw [h0, List.drop_zero]
          rw [hsplit]
          apply ih
          · simp only [List.length_append, List.length_drop, marker_len] at hlen ⊢
            simp at hk hlen ⊢
            omega
          · exact hni
      · show (pySplitGo (f + 1) (c :: (pre' ++ (marker ++ post)))).getLastD [] = post
        rw [pySplitGo_cons_step f c _ (by rwa [← List.cons_append])]
        have hin : marker <:+: pre' ++ (marker ++ post) := ⟨pre', post, by simp [List.append_assoc]⟩
        have hlen' : (pre' ++ (marker ++ post)).length ≤ f := by
          simp only [List.cons_append, List.length_cons] at hlen
          omega
        have h2 := pySplitGo_two_le f (pre' ++ (marker ++ post)) hlen' hin
        have hIH := ih pre' post hlen' hni
        cases hps : pySplitGo f (pre' ++ (marker ++ post)) with
        | nil => exact absurd hps (pySplitGo_ne_nil f _)
        | cons p ps =>
          rw [hps] at h2 hIH
          cases ps with
          | nil => simp at h2
          | cons q ps' =>
            show ((c :: p) :: q :: ps').getLastD [] = post
            rw [List.getLastD_cons] at hIH ⊢
            rw [List.getLastD_cons] at hIH ⊢
            exact hIH

/-! Extraction of the `Response <letter>` token from a full match. -/

theorem respTok_ne_nil : respTok ≠ [] := by decide

theorem searchRespGo_skip (f : Nat) (c : Char) (rest : Str) (hc : c ≠ 'R') :
    searchRespGo (f + 1) (c :: rest) = searchRespGo f rest := by
  have hp : ¬ respTok.isPrefixOf (c :: rest) = true := by
    intro hp
    obtain ⟨t, ht⟩ := List.isPrefixOf_iff_prefix.mp hp
    have : 'R' = c := by
      have := congrArg (fun l => l.headD ' ') ht
      simpa [respTok] using this
    exact hc this.symm
  simp only [searchRespGo, if_neg hp]

theorem searchRespGo_found (f : Nat) (u : Char) (tail : Str)
    (hu : 'A' ≤ u ∧ u ≤ 'Z') :
    searchRespGo (f + 1) (respTok ++ u :: tail) = some (respTok ++ [u]) := by
  have hp : respTok.isPrefixOf (respTok ++ u :: tail) = true :=
    List.isPrefixOf_iff_prefix.mpr ⟨u :: tail, rfl⟩
  have hshape : respTok ++ u :: tail = 'R' :: ("esponse ".toList ++ u :: tail) := rfl
  rw [hshape]
  simp only [searchRespGo]
  rw [← hshape]
  rw [if_pos hp]
  have hdrop : List.drop respTok.length (respTok ++ u :: tail) = u :: tail :=
    List.drop_left respTok (u :: tail)
  rw [hdrop]
  simp only [if_pos hu]

/-- Scanning for `Response [A-Z]` over junk that contains no `'R'` finds the
token at the far end. -/
theorem searchRespGo_junk : ∀ (g : Str) (f : Nat) (u : Char),
    g.length + 1 ≤ f → (∀ c ∈ g, c ≠ 'R') → ('A' ≤ u ∧ u ≤ 'Z') →
    searchRespGo f (g ++ (respTok ++ [u])) = some (respTok ++ [u]) := by
  intro g
  induction g with
  | nil =>
    intro f u hf hg hu
    cases f with
    | zero => omega
    | succ f' =>
      rw [List.nil_append]
      have : respTok ++ [u] = respTok ++ u :: [] := rfl
      rw [this, searchRespGo_found f' u [] hu]
  | cons c g' ih =>
    intro f u hf hg hu
    cases f with
    | zero => simp at hf
    | succ f' =>
      rw [List.cons_append, searchRespGo_skip f' c _ (hg c (by simp))]
      exact ih f' u (by simp at hf; omega) (fun x hx => hg x (by simp [hx])) hu

/-- On a full match of `\d+\.\s*Response [A-Z]`, the `re.search` extraction
returns exactly the trailing `Response <letter>` token. -/
theorem searchResp_of_match {l m r : Str} {u : Char}
    (h : matchNumbered l = some (m, u, r)) :
    searchResp m = some (respTok ++ [u]) := by
  obtain ⟨-, ds, ws, hm, hne, hds, hws⟩ := matchNumbered_some h
  have hshape : m = (ds ++ '.' :: ws) ++ (respTok ++ [u]) := by
    rw [hm]
    simp [List.append_assoc]
  have hjunk : ∀ c ∈ ds ++ '.' :: ws, c ≠ 'R' := by
    intro c hc
    rcases List.mem_append.mp hc with hcds | hcw
    · intro he
      have := hds c hcds
      rw [he] at this
      exact absurd this (by decide)
    · rcases List.mem_cons.mp hcw with he | hcw'
      · rw [he]
        decide
    
      · intro he
        have := hws c hcw'
        rw [he] at this
        exact absurd this (by decide)
  have hupper : 'A' ≤ u ∧ u ≤ 'Z' := by
    by_contra hcon
    simp only [matchNumbered] at h
    exact absurd h (by
      by_cases hne2 : l.takeWhile Char.isDigit = []
      · simp [hne2]
      · rw [if_neg hne2]
        cases hdt : l.drop (l.takeWhile Char.isDigit).length with
        | nil => simp
        | cons c r1 =>
          dsimp only
          by_cases hc : c = '.'
          · rw [if_pos hc]
            by_cases hpre : respTok.isPrefixOf (r1.drop (r1.takeWhile pyIsSpace).length)
            · rw [if_pos hpre]
              cases hd9 : (r1.drop (r1.takeWhile pyIsSpace).length).drop respTok.length with
              | nil => simp
              | cons u2 r3 =>
                dsimp only
                by_cases hu2 : 'A' ≤ u2 ∧ u2 ≤ 'Z'
                · rw [if_pos hu2]
                  intro hsome
                  have : u2 = u := congrArg (fun x => x.2.1) (Option.some.inj hsome)
                  rw [this] at hu2
                  exact hcon hu2
                · rw [if_neg hu2]
                  simp
            · rw [if_neg hpre]
              simp
          · rw [if_neg hc]
            simp)
  rw [hshape]
  unfold searchResp
  apply searchRespGo_junk (ds ++ '.' :: ws) _ u _ hjunk hupper
  simp [List.length_append]
  omega

/-- The `re.findall` pass followed by per-match `re.search` extraction yields
exactly the directly-scanned tokens of §4.2 step 3. -/
theorem findallGo_map_search : ∀ (f : Nat) (s : Str),
    (findallGo f s).map (fun m => (searchResp m).getD []) = specTokensGo f s := by
  intro f
  induction f with
  | zero => intro s; rfl
  | succ f ih =>
    intro s
    cases s with
    | nil => rfl
    | cons c rest =>
      simp only [findallGo, specTokensGo]
      cases hmt : matchNumbered (c :: rest) with
      | none => exact ih rest
      | some tri =>
        obtain ⟨m, u, r2⟩ := tri
        simp only [List.map]
        rw [searchResp_of_match hmt, ih r2]
        rfl

/-- Characterisation of the text-ranking parse: on a text with no marker it
returns `[]`; on `pre ++ marker ++ post` with no marker occurrence inside
`post` (so `post` is the text after the *last* occurrence) it returns the
scanned tokens of `post` alone. -/
theorem parse_marker_decomp :
    (∀ s : Str, ¬ marker <:+: s → parse_ranking_from_text s = []) ∧
    ∀ pre post : Str, ¬ marker <:+: post →
      parse_ranking_from_text (pre ++ (marker ++ post)) = specTokens post := by
  constructor
  · intro s h
    simp only [parse_ranking_from_text, if_neg h]
  · intro pre post h
    have hin : marker <:+: pre ++ (marker ++ post) :=
      ⟨pre, post, by simp [List.append_assoc]⟩
    simp only [parse_ranking_from_text]
    rw [if_pos hin]
    have h2 : 2 ≤ (pySplit (pre ++ (marker ++ post))).length :=
      pySplitGo_two_le _ _ le_rfl hin
    rw [if_pos h2]
    have hlast : (pySplit (pre ++ (marker ++ post))).getLastD [] = post :=
      pySplitGo_getLastD _ pre post le_rfl h
    rw [hlast]
    have hmap := findallGo_map_search post.length post
    by_cases hempty : (findallNumbered post).isEmpty = true
    · rw [if_neg (not_not_intro hempty)]
      have hnil : findallNumbered post = [] := by simpa using hempty
      show ([] : List Str) = specTokens post
      unfold specTokens
      rw [← hmap]
      unfold findallNumbered at hnil
      rw [hnil]
      rfl
    · rw [if_pos hempty]
      exact hmap

/-- C1: for every evaluator text containing the literal marker
`FINAL RANKING:` — written as `pre ++ marker ++ post` with no marker
occurrence inside `post`, so that `post` is exactly the text after the
marker's last occurrence — the text-ranking parse returns exactly the
`Response <letter>` tokens of the entries matching
`<number>. Response <letter>` found in `post`, in textual order; hence a
response-label mention occurring only before the marker never appears in the
result.  For every text in which the marker is absent, the parse returns the
empty list. -/
theorem C1_parse_only_after_last_marker :
    (∀ s : Str, ¬ marker <:+: s → parse_ranking_from_text s = []) ∧
    ∀ pre post : Str, ¬ marker <:+: post →
      parse_ranking_from_text (pre ++ (marker ++ post)) = specTokens post :=
  parse_marker_decomp

set_option maxRecDepth 20000 in
/-- Witness for C1 at the test-suite inputs: a `Response A` mention before
the marker does not survive the parse, and a marker-free text parses to
`[]`. -/
theorem C1_witness :
    parse_ranking_from_text
        ("I think Response A is the best overall, followed by Response B.".toList) = [] ∧
    parse_ranking_from_text ("Response A is okay, but B is better.\n".toList ++
        (marker ++ "\n1. Response B\n2. Response C\n".toList)) =
      specTokens ("\n1. Response B\n2. Response C\n".toList) ∧
    specTokens ("\n1. Response B\n2. Response C\n".toList) =
      ["Response B".toList, "Response C".toList] :=
  ⟨C1_parse_only_after_last_marker.1 _ (by decide),
   C1_parse_only_after_last_marker.2 _ _ (by decide), by decide⟩

set_option maxRecDepth 20000 in
/-- C5 fails on the code: the parse does *not* deduplicate.  A tail whose
numbered entries repeat `Response A` yields the token twice. -/
theorem C5_counterexample :
    (parse_ranking_from_text
      ("FINAL RANKING:\n1. Response A\n2. Response A".toList)).count
        ("Response A".toList) = 2 := by decide

/-- C5 (amended): the parse returns one `Response <letter>` token per
matched numbered entry of the tail after the last marker occurrence, in
textual order, *preserving duplicates*: its multiset of tokens (and its
length) equals that of the scanned entry list, with no deduplication. -/
theorem C5_amended_duplicates_kept :
    ∀ pre post : Str, ¬ marker <:+: post →
      (∀ tok : Str,
        (parse_ranking_from_text (pre ++ (marker ++ post))).count tok =
          (specTokens post).count tok) ∧
      (parse_ranking_from_text (pre ++ (marker ++ post))).length =
        (specTokens post).length := by
  intro pre post h
  rw [parse_marker_decomp.2 pre post h]
  exact ⟨fun _ => rfl, rfl⟩

set_option maxRecDepth 20000 in
/-- Witness for the amended C5: on the duplicated tail the parse keeps both
occurrences. -/
theorem C5_amended_witness :
    ((parse_ranking_from_text (([] : Str) ++
        (marker ++ "\n1. Response A\n2. Response A".toList))).count
          ("Response A".toList) =
      (specTokens ("\n1. Response A\n2. Response A".toList)).count
        ("Response A".toList)) ∧
    (specTokens ("\n1. Response A\n2. Response A".toList)).count
      ("Response A".toList) = 2 :=
  ⟨(C5_amended_duplicates_kept [] _ (by decide)).1 _, by decide⟩

/-! Aggregate-scorer lemmas and C2. -/

theorem scoreOf_addScore (l : List (Str × ℚ)) (k : Str) (v : ℚ) (x : Str) :
    scoreOf (addScore l k v) x = scoreOf l x + (if k = x then v else 0) := by
  induction l with
  | nil =>
    simp only [addScore, scoreOf]
    by_cases h : k = x <;> simp [h]
  | cons kv l ih =>
    obtain ⟨k', v'⟩ := kv
    by_cases h1 : k' = k
    · subst h1
      simp only [addScore, if_pos rfl, scoreOf]
      by_cases h2 : k' = x
      · subst h2
        simp
      · simp [h2]
    · simp only [addScore, if_neg h1, scoreOf]
      by_cases h2 : k' = x
      · subst h2
        have hkx : ¬ k = k' := fun h => h1 h.symm
        simp [hkx]
      · simp only [if_neg h2, ih]

theorem aggFallback_fold (l2m : List (Str × Str)) (ev : Str) (n : Nat) :
    ∀ (pls : List (Nat × Str)) (st : AggState) (m : Str),
      scoreOf ((pls.foldl (aggFallbackEntry l2m ev n) st).scores) m =
        scoreOf st.scores m +
          (pls.map (fun pl =>
            if lookupStr l2m pl.2 = some m then
              ((((n : ℤ) - (pl.1 : ℤ) + 1) * 10 : ℤ) : ℚ) *
                (if ev = m then 1/2 else 1)
            else 0)).sum := by
  intro pls
  induction pls with
  | nil => intro st m; simp
  | cons pl rest ih =>
    intro st m
    rw [List.foldl_cons, List.map_cons, List.sum_cons, ih]
    cases hl : lookupStr l2m pl.2 with
    | none =>
      have hstep0 : aggFallbackEntry l2m ev n st pl = st := by
        unfold aggFallbackEntry
        rw [hl]
      rw [hstep0]
      simp
    | some subject =>
      have hstep : aggFallbackEntry l2m ev n st pl =
          { scores := addScore st.scores subject
              (((((n : ℤ) - (pl.1 : ℤ) + 1) * 10 : ℤ) : ℚ) *
                (if ev = subject then 1/2 else 1)),
            counts := bumpCount st.counts subject } := by
        unfold aggFallbackEntry
        rw [hl]
      rw [hstep]
      simp only [scoreOf_addScore]
      have hpt : (if subject = m then
            ((((n : ℤ) - (pl.1 : ℤ) + 1) * 10 : ℤ) : ℚ) *
              (if ev = subject then 1/2 else 1)
          else 0) =
          (if (some subject : Option Str) = some m then
            ((((n : ℤ) - (pl.1 : ℤ) + 1) * 10 : ℤ) : ℚ) *
              (if ev = m then 1/2 else 1)
          else 0) := by
        by_cases hsm : subject = m
        · subst hsm
          simp
        · simp [hsm]
      rw [hpt, add_assoc]

/-- C2: for every evaluator output without a usable rubric, the aggregate
scorer adds, for the label at 1-based position `p` of the parsed ordinal
ranking, `(n - p + 1) * 10` to the subject model's total (`n` = number of
candidates), weighted `0.5` when the evaluator is the subject model and
`1.0` otherwise; and in the concrete 1-evaluator, 2-candidate scenario where
the evaluator ranks itself first, both candidates end with
`total_score = 10.0`. -/
theorem C2_fallback_scoring :
    (∀ (l2m : List (Str × Str)) (st : AggState) (r : S2Result),
      rubricTruthy r = false →
      ∃ st', aggStep l2m l2m.length st r = .ok st' ∧
        ∀ m : Str, scoreOf st'.scores m =
          scoreOf st.scores m + fallbackContribution r l2m l2m.length m) ∧
    calculate_aggregate_rankings
        [{ model := "model_1".toList,
           ranking := "FINAL RANKING:\n1. Response A\n2. Response B".toList,
           parsed_ranking := ["Response A".toList, "Response B".toList],
           rubric := none }]
        [("Response A".toList, "model_1".toList),
         ("Response B".toList, "model_2".toList)] =
      .ok [{ model := "model_1".toList, total_score := 10, average_rank := 10,
             rankings_count := 1 },
           { model := "model_2".toList, total_score := 10, average_rank := 10,
             rankings_count := 1 }] := by
  constructor
  · intro l2m st r h
    refine ⟨(List.enumFrom 1 (effRanking r)).foldl
        (aggFallbackEntry l2m r.model l2m.length) st, ?_, ?_⟩
    · unfold aggStep
      rw [h]
      simp
    · intro m
      unfold fallbackContribution
      exact aggFallback_fold l2m r.model l2m.length _ st m
  · norm_num +decide [calculate_aggregate_rankings, aggFold, aggStep, rubricTruthy,
      effRanking, aggFallbackEntry, lookupStr, addScore, bumpCount, pyRound2,
      pyRound, ratFloor, List.insertionSort, List.orderedInsert, aggGE,
      List.enumFrom]

/-- Witness for C2 at the self-ranking evaluator of the test suite: the
rubricless hypothesis holds by evaluation. -/
theorem C2_witness :
    ∃ st', aggStep
        [("Response A".toList, "model_1".toList),
         ("Response B".toList, "model_2".toList)]
        ([("Response A".toList, "model_1".toList),
          ("Response B".toList, "model_2".toList)] : List (Str × Str)).length
        ⟨[], fun _ => 0⟩
        { model := "model_1".toList,
          ranking := "FINAL RANKING:\n1. Response A\n2. Response B".toList,
          parsed_ranking := ["Response A".toList, "Response B".toList],
          rubric := none } = .ok st' ∧
      ∀ m : Str, scoreOf st'.scores m =
        scoreOf ([] : List (Str × ℚ)) m +
          fallbackContribution
            { model := "model_1".toList,
              ranking := "FINAL RANKING:\n1. Response A\n2. Response B".toList,
              parsed_ranking := ["Response A".toList, "Response B".toList],
              rubric := none }
            [("Response A".toList, "model_1".toList),
             ("Response B".toList, "model_2".toList)]
            ([("Response A".toList, "model_1".toList),
              ("Response B".toList, "model_2".toList)] : List (Str × Str)).length m :=
  C2_fallback_scoring.1 _ _ _ rfl

/-! Membership invariants of the score accumulator, for C10. -/

theorem mem_addScore {l : List (Str × ℚ)} {k : Str} {v : ℚ} {p : Str × ℚ}
    (h : p ∈ addScore l k v) : p.1 = k ∨ p ∈ l := by
  induction l with
  | nil =>
    simp only [addScore, List.mem_singleton] at h
    subst h
    exact Or.inl rfl
  | cons kv rest ih =>
    obtain ⟨k', v'⟩ := kv
    by_cases hk : k' = k
    · subst hk
      simp only [addScore, if_pos rfl] at h
      cases h with
      | head => exact Or.inl rfl
      | tail _ h => exact Or.inr (List.mem_cons_of_mem _ h)
    · simp only [addScore, if_neg hk] at h
      cases h with
      | head => exact Or.inr (List.mem_cons_self _ _)
      | tail _ h =>
        rcases ih h with h2 | h2
        · exact Or.inl h2
        · exact Or.inr (List.mem_cons_of_mem _ h2)

theorem bumpCount_ge (c : Str → ℕ) (k x : Str) : c x ≤ bumpCount c k x := by
  unfold bumpCount
  by_cases h : x = k <;> simp [h]

theorem counts_inv_step {l : List (Str × ℚ)} {c : Str → ℕ} {k : Str} {v : ℚ}
    (hinv : ∀ p ∈ l, 1 ≤ c p.1) :
    ∀ p ∈ addScore l k v, 1 ≤ bumpCount c k p.1 := by
  intro p hp
  rcases mem_addScore hp with h | h
  · rw [h]
    unfold bumpCount
    simp
  · exact le_trans (hinv p h) (bumpCount_ge c k p.1)

theorem absent_step {l : List (Str × ℚ)} {k : Str} {v : ℚ} {m : Str}
    (hk : k ≠ m) (habs : ∀ p ∈ l, p.1 ≠ m) :
    ∀ p ∈ addScore l k v, p.1 ≠ m := by
  intro p hp
  rcases mem_addScore hp with h | h
  · rw [h]
    exact hk
  · exact habs p h

theorem aggRubricEntry_inv {l2m : List (Str × Str)} {ev : Str} {st st' : AggState}
    {e : PyVal} (h : aggRubricEntry l2m ev st e = .ok st') :
    ((∀ p ∈ st.scores, 1 ≤ st.counts p.1) → ∀ p ∈ st'.scores, 1 ≤ st'.counts p.1) ∧
    ∀ m : Str, lookupStr l2m (labelOfEv e) ≠ some m →
      (∀ p ∈ st.scores, p.1 ≠ m) → ∀ p ∈ st'.scores, p.1 ≠ m := by
  unfold aggRubricEntry at h
  cases e with
  | vdict d =>
    dsimp only at h
    split at h
    · -- lookup succeeded
      rename_i subject hl
      split at h
      · rename_i acc rsn cm cl cf hacc hrsn hcm hcl hcf
        injection h with h2
        subst h2
        constructor
        · intro hinv
          exact counts_inv_step hinv
        · intro m hm habs
          have hsm : subject ≠ m := by
            intro he
            subst he
            exact hm (by simpa [labelOfEv] using hl)
          exact absent_step hsm habs
      · exact absurd h (by simp)
    · -- lookup failed: state unchanged
      rename_i hl
      injection h with h2
      subst h2
      exact ⟨fun hinv => hinv, fun m _ habs => habs⟩
  | vnone => exact absurd h (by simp)
  | vbool b => exact absurd h (by simp)
  | vnum q => exact absurd h (by simp)
  | vstr s => exact absurd h (by simp)
  | vlist l => exact absurd h (by simp)

theorem aggRubricFold_inv {l2m : List (Str × Str)} {ev : Str} :
    ∀ (evs : List PyVal) (st st' : AggState),
      aggRubricFold l2m ev st evs = .ok st' →
      ((∀ p ∈ st.scores, 1 ≤ st.counts p.1) → ∀ p ∈ st'.scores, 1 ≤ st'.counts p.1) ∧
      ∀ m : Str, (∀ e ∈ evs, lookupStr l2m (labelOfEv e) ≠ some m) →
        (∀ p ∈ st.scores, p.1 ≠ m) → ∀ p ∈ st'.scores, p.1 ≠ m := by
  intro evs
  induction evs with
  | nil =>
    intro st st' h
    injection h with h2
    subst h2
    exact ⟨fun hinv => hinv, fun m _ habs => habs⟩
  | cons e rest ih =>
    intro st st' h
    unfold aggRubricFold at h
    cases hstep : aggRubricEntry l2m ev st e with
    | error err =>
      rw [hstep] at h
      exact absurd h (by simp)
    | ok st1 =>
      rw [hstep] at h
      dsimp only at h
      obtain ⟨ih1, ih2⟩ := ih st1 st' h
      obtain ⟨e1, e2⟩ := aggRubricEntry_inv hstep
      refine ⟨fun hinv => ih1 (e1 hinv), fun m hm habs => ?_⟩
      have hlab : lookupStr l2m (labelOfEv e) ≠ some m := hm e (List.mem_cons_self _ _)
      exact ih2 m (fun e' he' => hm e' (List.mem_cons_of_mem _ he'))
        (e2 m hlab habs)

theorem aggFallbackEntry_inv (l2m : List (Str × Str)) (ev : Str) (n : Nat)
    (st : AggState) (pl : Nat × Str) :
    ((∀ p ∈ st.scores, 1 ≤ st.counts p.1) →
      ∀ p ∈ (aggFallbackEntry l2m ev n st pl).scores,
        1 ≤ (aggFallbackEntry l2m ev n st pl).counts p.1) ∧
    ∀ m : Str, lookupStr l2m pl.2 ≠ some m →
      (∀ p ∈ st.scores, p.1 ≠ m) →
      ∀ p ∈ (aggFallbackEntry l2m ev n st pl).scores, p.1 ≠ m := by
  unfold aggFallbackEntry
  cases hl : lookupStr l2m pl.2 with
  | none => exact ⟨fun hinv => hinv, fun m _ habs => habs⟩
  | some subject =>
    dsimp only
    constructor
    · intro hinv
      exact counts_inv_step hinv
    · intro m hm habs
      have hsm : subject ≠ m := fun he => hm (he ▸ rfl)
      exact absent_step hsm habs

theorem aggFallbackFold_inv (l2m : List (Str × Str)) (ev : Str) (n : Nat) :
    ∀ (pls : List (Nat × Str)) (st : AggState),
      ((∀ p ∈ st.scores, 1 ≤ st.counts p.1) →
        ∀ p ∈ (pls.foldl (aggFallbackEntry l2m ev n) st).scores,
          1 ≤ (pls.foldl (aggFallbackEntry l2m ev n) st).counts p.1) ∧
      ∀ m : Str, (∀ pl ∈ pls, lookupStr l2m pl.2 ≠ some m) →
        (∀ p ∈ st.scores, p.1 ≠ m) →
        ∀ p ∈ (pls.foldl (aggFallbackEntry l2m ev n) st).scores, p.1 ≠ m := by
  intro pls
  induction pls with
  | nil => exact fun st => ⟨fun hinv => hinv, fun m _ habs => habs⟩
  | cons pl rest ih =>
    intro st
    rw [List.foldl_cons]
    obtain ⟨e1, e2⟩ := aggFallbackEntry_inv l2m ev n st pl
    obtain ⟨i1, i2⟩ := ih (aggFallbackEntry l2m ev n st pl)
    refine ⟨fun hinv => i1 (e1 hinv), fun m hm habs => ?_⟩
    exact i2 m (fun pl' hpl' => hm pl' (List.mem_cons_of_mem _ hpl'))
      (e2 m (hm pl (List.mem_cons_self _ _)) habs)

theorem mem_of_mem_enumFrom {α : Type} :
    ∀ (l : List α) (i : Nat) (x : Nat × α), x ∈ List.enumFrom i l → x.2 ∈ l := by
  intro l
  induction l with
  | nil => intro i x hx; simp [List.enumFrom] at hx
  | cons a rest ih =>
    intro i x hx
    cases hx with
    | head => exact List.mem_cons_self _ _
    | tail _ hx => exact List.mem_cons_of_mem _ (ih (i + 1) x hx)

theorem aggStep_inv {l2m : List (Str × Str)} {n : Nat} {st st' : AggState}
    {r : S2Result} (h : aggStep l2m n st r = .ok st') :
    ((∀ p ∈ st.scores, 1 ≤ st.counts p.1) → ∀ p ∈ st'.scores, 1 ≤ st'.counts p.1) ∧
    ∀ m : Str, ¬ refsModel l2m r m →
      (∀ p ∈ st.scores, p.1 ≠ m) → ∀ p ∈ st'.scores, p.1 ≠ m := by
  unfold aggStep at h
  by_cases htr : rubricTruthy r = true
  · rw [if_pos htr] at h
    cases hr : r.rubric with
    | none =>
      rw [hr] at h
      exact absurd h (by simp)
    | some rb =>
      cases rb with
      | vlist evs =>
        rw [hr] at h
        dsimp only at h
        obtain ⟨f1, f2⟩ := aggRubricFold_inv evs st st' h
        refine ⟨f1, fun m hm habs => ?_⟩
        refine f2 m (fun e he hle => hm (Or.inl ⟨labelOfEv e, ?_, hle⟩)) habs
        unfold rubricLabels
        rw [hr]
        exact List.mem_map_of_mem labelOfEv he
      | vnone => rw [hr] at h; exact absurd h (by simp)
      | vbool b => rw [hr] at h; exact absurd h (by simp)
      | vnum q => rw [hr] at h; exact absurd h (by simp)
      | vstr s => rw [hr] at h; exact absurd h (by simp)
      | vdict d => rw [hr] at h; exact absurd h (by simp)
  · rw [if_neg htr] at h
    injection h with h2
    subst h2
    obtain ⟨f1, f2⟩ := aggFallbackFold_inv l2m r.model n (List.enumFrom 1 (effRanking r)) st
    refine ⟨f1, fun m hm habs => ?_⟩
    refine f2 m (fun pl hpl hle => hm (Or.inr ⟨pl.2, ?_, hle⟩)) habs
    exact mem_of_mem_enumFrom _ 1 pl hpl

theorem aggFold_inv {l2m : List (Str × Str)} :
    ∀ (rs : List S2Result) (st st' : AggState),
      aggFold l2m st rs = .ok st' →
      ((∀ p ∈ st.scores, 1 ≤ st.counts p.1) → ∀ p ∈ st'.scores, 1 ≤ st'.counts p.1) ∧
      ∀ m : Str, (∀ r ∈ rs, ¬ refsModel l2m r m) →
        (∀ p ∈ st.scores, p.1 ≠ m) → ∀ p ∈ st'.scores, p.1 ≠ m := by
  intro rs
  induction rs with
  | nil =>
    intro st st' h
    injection h with h2
    subst h2
    exact ⟨fun hinv => hinv, fun m _ habs => habs⟩
  | cons r rest ih =>
    intro st st' h
    unfold aggFold at h
    cases hstep : aggStep l2m l2m.length st r with
    | error err =>
      rw [hstep] at h
      exact absurd h (by simp)
    | ok st1 =>
      rw [hstep] at h
      dsimp only at h
      obtain ⟨i1, i2⟩ := ih st1 st' h
      obtain ⟨e1, e2⟩ := aggStep_inv hstep
      refine ⟨fun hinv => i1 (e1 hinv), fun m hm habs => ?_⟩
      exact i2 m (fun r' hr' => hm r' (List.mem_cons_of_mem _ hr'))
        (e2 m (hm r (List.mem_cons_self _ _)) habs)

/-- C10: every entry of the aggregate output has an evaluation count of at
least 1, and a candidate model that no evaluator's rubric entry or ordinal
ranking references (through the label map) is omitted from the output
entirely — never listed with a zero score. -/
theorem C10_counts_positive_and_unreferenced_omitted :
    ∀ (rs : List S2Result) (l2m : List (Str × Str)) (out : List AggEntry),
      calculate_aggregate_rankings rs l2m = .ok out →
      (∀ e ∈ out, 1 ≤ e.rankings_count) ∧
      ∀ m : Str, (∀ r ∈ rs, ¬ refsModel l2m r m) → ∀ e ∈ out, e.model ≠ m := by
  intro rs l2m out h
  unfold calculate_aggregate_rankings at h
  cases hfold : aggFold l2m ⟨[], fun _ => 0⟩ rs with
  | error err =>
    rw [hfold] at h
    exact absurd h (by simp)
  | ok st =>
    rw [hfold] at h
    dsimp only at h
    injection h with h2
    subst h2
    obtain ⟨i1, i2⟩ := aggFold_inv rs _ st hfold
    have hcounts : ∀ p ∈ st.scores, 1 ≤ st.counts p.1 := i1 (by simp)
    constructor
    · intro e he
      rw [List.mem_insertionSort] at he
      obtain ⟨p, hp, hpe⟩ := List.mem_map.mp he
      rw [← hpe]
      exact hcounts p hp
    · intro m hm e he
      rw [List.mem_insertionSort] at he
      obtain ⟨p, hp, hpe⟩ := List.mem_map.mp he
      rw [← hpe]
      exact i2 m hm (by simp) p hp

/-- Witness for C10: one rubricless evaluator whose ordinal ranking
references no known candidate yields an empty aggregate — with positive
counts vacuously, and the unreferenced candidate absent. -/
theorem C10_witness :
    (∀ e ∈ ([] : List AggEntry), 1 ≤ e.rankings_count) ∧
    ∀ m : Str,
      (∀ r ∈ [{ model := "model_1".toList,
                ranking := ("".toList : Str),
                parsed_ranking := ["Response X".toList],
                rubric := none : S2Result }],
        ¬ refsModel [("Response A".toList, "model_A".toList)] r m) →
      ∀ e ∈ ([] : List AggEntry), e.model ≠ m :=
  C10_counts_positive_and_unreferenced_omitted
    [{ model := "model_1".toList, ranking := "".toList,
       parsed_ranking := ["Response X".toList], rubric := none }]
    [("Response A".toList, "model_A".toList)] [] rfl

/-! Stable-sort properties of the rubric-derived ranking (C6), and the
shape of `processReply` on a structured reply (C4, C6). -/

theorem filter_orderedInsert_key (q : ℚ) (a : PyVal × ℚ) (l : List (PyVal × ℚ)) :
    (List.orderedInsert rubricGE a l).filter (fun p => decide (p.2 = q)) =
      if a.2 = q then a :: l.filter (fun p => decide (p.2 = q))
      else l.filter (fun p => decide (p.2 = q)) := by
  rw [List.orderedInsert_eq_take_drop, List.filter_append]
  have hsplit : l.filter (fun p => decide (p.2 = q)) =
      (l.takeWhile fun b => ¬ rubricGE a b).filter (fun p => decide (p.2 = q)) ++
        (l.dropWhile fun b => ¬ rubricGE a b).filter (fun p => decide (p.2 = q)) := by
    rw [← List.filter_append, List.takeWhile_append_dropWhile]
  by_cases ha : a.2 = q
  · rw [if_pos ha]
    have htw : (l.takeWhile fun b => ¬ rubricGE a b).filter
        (fun p => decide (p.2 = q)) = [] := by
      rw [List.filter_eq_nil_iff]
      intro b hb
      have hmem := List.mem_takeWhile_imp hb
      simp only [decide_eq_true_eq] at hmem ⊢
      intro hbq
      apply hmem
      unfold rubricGE
      rw [hbq, ← ha]
    rw [htw, hsplit, htw, List.filter_cons]
    simp [ha]
  · rw [if_neg ha, hsplit, List.filter_cons]
    simp [ha]

theorem filter_insertionSort_key (q : ℚ) :
    ∀ l : List (PyVal × ℚ),
      (List.insertionSort rubricGE l).filter (fun p => decide (p.2 = q)) =
        l.filter (fun p => decide (p.2 = q)) := by
  intro l
  induction l with
  | nil => rfl
  | cons a l ih =>
    show (List.orderedInsert rubricGE a (List.insertionSort rubricGE l)).filter _ = _
    rw [filter_orderedInsert_key, List.filter_cons]
    by_cases ha : a.2 = q
    · rw [if_pos ha, ih]
      simp [ha]
    · rw [if_neg ha, ih]
      simp [ha]

theorem keysOfEvs_length : ∀ {evs : List PyVal} {ks : List ℚ},
    keysOfEvs evs = .ok ks → ks.length = evs.length := by
  intro evs
  induction evs with
  | nil =>
    intro ks h
    injection h with h2
    subst h2
    rfl
  | cons e rest ih =>
    intro ks h
    unfold keysOfEvs at h
    cases hk : keyOf e with
    | error err => rw [hk] at h; exact absurd h (by simp)
    | ok k =>
      rw [hk] at h
      cases hks : keysOfEvs rest with
      | error err => rw [hks] at h; exact absurd h (by simp)
      | ok ks' =>
        rw [hks] at h
        dsimp only at h
        injection h with h2
        subst h2
        simp [ih hks]

theorem mem_zip_of_mem_left {α β : Type} :
    ∀ (l1 : List α) (l2 : List β) (a : α), a ∈ l1 → l1.length = l2.length →
      ∃ b, (a, b) ∈ l1.zip l2 := by
  intro l1
  induction l1 with
  | nil => intro l2 a ha; exact absurd ha (by simp)
  | cons x rest ih =>
    intro l2 a ha hlen
    cases l2 with
    | nil => simp at hlen
    | cons y rest2 =>
      cases ha with
      | head => exact ⟨y, List.mem_cons_self _ _⟩
      | tail _ ha =>
        obtain ⟨b, hb⟩ := ih rest2 a ha (by simpa using hlen)
        exact ⟨b, List.mem_cons_of_mem _ hb⟩

theorem dictHas_of_get? {d : List (Str × PyVal)} {k : Str} {v : PyVal}
    (h : dictGet? d k = some v) : dictHas d k = true := by
  unfold dictHas
  rw [h]
  rfl

theorem dictGetD_of_get? {d : List (Str × PyVal)} {k : Str} {v : PyVal}
    (h : dictGet? d k = some v) (dflt : PyVal) : dictGetD d k dflt = v := by
  unfold dictGetD
  rw [h]
  rfl

theorem processReply_components {loads : Str → Option PyVal} {model text : Str}
    {d : List (Str × PyVal)} {evs : List PyVal}
    (hload : loads (cleanText text) = some (.vdict d))
    (hevs : dictGet? d ("evaluations".toList) = some (.vlist evs)) :
    (processReply loads model text).rubric = some (.vlist evs) ∧
    (processReply loads model text).ranking = text ∧
    (processReply loads model text).model = model ∧
    (∀ toks, rubricRanking (.vlist evs) = .ok toks →
      (processReply loads model text).parsed_ranking =
        (if toks.isEmpty then parse_ranking_from_text text else toks)) ∧
    ∀ e : Unit, rubricRanking (.vlist evs) = .error e →
      (processReply loads model text).parsed_ranking = parse_ranking_from_text text := by
  simp only [processReply]
  rw [hload]
  dsimp only
  rw [dictHas_of_get? hevs, if_pos rfl, dictGetD_of_get? hevs]
  cases hrr : rubricRanking (.vlist evs) with
  | ok toks =>
    dsimp only
    refine ⟨by trivial, by trivial, by trivial, ?_, ?_⟩
    · intro toks' h
      injection h with h2
      subst h2
      rfl
    · intro e h
      exact absurd h (by simp)
  | error e =>
    dsimp only
    refine ⟨by trivial, by trivial, by trivial, ?_, ?_⟩
    · intro toks' h
      exact absurd h (by simp)
    · intro e' h
      simp

/-- C6: for every reply whose structured parse succeeds with computable keys
and at least one labelled entry (the spec's §4.2 condition for a usable
rubric), the derived ordinal ranking is the rubric's entries stable-sorted
descending by `(accuracy+reasoning+completeness+clarity) * confidence` —
witnessed by a list that is a permutation of the keyed entries, sorted
descending, with every equal-key class kept in original entry order —
mapped to `Response <label>` tokens of the labelled entries; and this
derived ranking is the participant's `parsed_ranking` even though the
rubric is present. -/
theorem C6_rubric_derived_ranking :
    ∀ (loads : Str → Option PyVal) (model text : Str)
      (d : List (Str × PyVal)) (evs : List PyVal),
      loads (cleanText text) = some (.vdict d) →
      dictGet? d ("evaluations".toList) = some (.vlist evs) →
      (keysOfEvs evs).isOk = true →
      evs.any hasLabelB = true →
      (processReply loads model text).rubric = some (.vlist evs) ∧
      ∃ ks l',
        keysOfEvs evs = .ok ks ∧
        l'.Perm (evs.zip ks) ∧
        List.Sorted rubricGE l' ∧
        (∀ q : ℚ, l'.filter (fun p => decide (p.2 = q)) =
          (evs.zip ks).filter (fun p => decide (p.2 = q))) ∧
        (processReply loads model text).parsed_ranking = l'.filterMap entryToken? := by
  intro loads model text d evs hload hevs hok hlab
  obtain ⟨hrub, hrank, hmod, hparsedOk, hparsedErr⟩ := processReply_components hload hevs
  refine ⟨hrub, ?_⟩
  obtain ⟨ks, hks⟩ : ∃ ks, keysOfEvs evs = .ok ks := by
    cases h : keysOfEvs evs with
    | error e =>
      rw [h] at hok
      exact absurd hok (by simp [Except.isOk, Except.toBool])
    | ok ks => exact ⟨ks, rfl⟩
  refine ⟨ks, List.insertionSort rubricGE (evs.zip ks), hks,
    List.perm_insertionSort _ _, List.sorted_insertionSort _ _,
    fun q => filter_insertionSort_key q _, ?_⟩
  have hrr : rubricRanking (.vlist evs) =
      .ok ((List.insertionSort rubricGE (evs.zip ks)).filterMap entryToken?) := by
    unfold rubricRanking
    dsimp only
    rw [hks]
  rw [hparsedOk _ hrr]
  have hne : ¬ ((List.insertionSort rubricGE (evs.zip ks)).filterMap
      entryToken?).isEmpty = true := by
    obtain ⟨ev, hev, hlabel⟩ := List.any_eq_true.mp hlab
    obtain ⟨k, hk⟩ := mem_zip_of_mem_left evs ks ev hev (keysOfEvs_length hks).symm
    have hmemsort : (ev, k) ∈ List.insertionSort rubricGE (evs.zip ks) :=
      (List.mem_insertionSort _).mpr hk
    have htok : ∃ t, entryToken? (ev, k) = some t := by
      cases ev with
      | vdict d' =>
        refine ⟨tokenOfEntry (.vdict d'), ?_⟩
        unfold entryToken?
        dsimp only
        rw [if_pos (by simpa [hasLabelB] using hlabel)]
      | vnone => simp [hasLabelB] at hlabel
      | vbool b => simp [hasLabelB] at hlabel
      | vnum q => simp [hasLabelB] at hlabel
      | vstr s => simp [hasLabelB] at hlabel
      | vlist l => simp [hasLabelB] at hlabel
    obtain ⟨t, ht⟩ := htok
    have hmm : t ∈ (List.insertionSort rubricGE (evs.zip ks)).filterMap entryToken? :=
      List.mem_filterMap.mpr ⟨(ev, k), hmemsort, ht⟩
    intro hemp
    rw [List.isEmpty_iff] at hemp
    rw [hemp] at hmm
    exact absurd hmm (by simp)
  rw [if_neg hne]

set_option maxRecDepth 20000 in
/-- Witness for C6 at a concrete structured reply carrying one labelled
entry. -/
theorem C6_witness :
    (processReply
        (fun _ => some (.vdict [("evaluations".toList,
          .vlist [.vdict [("response_label".toList, .vstr ("A".toList)),
                          ("accuracy".toList, .vnum 5)]])]))
        ("model_1".toList)
        ("\x7b\"evaluations\": [\x7b\"response_label\": \"A\", \"accuracy\": 5\x7d]\x7d".toList)).rubric =
      some (.vlist [.vdict [("response_label".toList, .vstr ("A".toList)),
                            ("accuracy".toList, .vnum 5)]]) ∧
    ∃ ks l',
      keysOfEvs [.vdict [("response_label".toList, .vstr ("A".toList)),
                         ("accuracy".toList, .vnum 5)]] = .ok ks ∧
      l'.Perm ([PyVal.vdict [("response_label".toList, .vstr ("A".toList)),
                             ("accuracy".toList, .vnum 5)]].zip ks) ∧
      List.Sorted rubricGE l' ∧
      (∀ q : ℚ, l'.filter (fun p => decide (p.2 = q)) =
        ([PyVal.vdict [("response_label".toList, .vstr ("A".toList)),
                       ("accuracy".toList, .vnum 5)]].zip ks).filter
          (fun p => decide (p.2 = q))) ∧
      (processReply
          (fun _ => some (.vdict [("evaluations".toList,
            .vlist [.vdict [("response_label".toList, .vstr ("A".toList)),
                            ("accuracy".toList, .vnum 5)]])]))
          ("model_1".toList)
          ("\x7b\"evaluations\": [\x7b\"response_label\": \"A\", \"accuracy\": 5\x7d]\x7d".toList)).parsed_ranking =
        l'.filterMap entryToken? :=
  C6_rubric_derived_ranking _ _ _ _ _ rfl rfl rfl (by decide)

/-! C4: a structured parse with no labelled entry still carries the rubric,
and the scorer still takes the rubric branch whenever the rubric array is
non-empty. -/

theorem dictGet?_eq_none_of_not_has {d : List (Str × PyVal)} {k : Str}
    (h : dictHas d k = false) : dictGet? d k = none := by
  unfold dictHas at h
  cases hq : dictGet? d k with
  | none => rfl
  | some v =>
    rw [hq] at h
    simp at h

theorem aggRubricFold_nolabel {l2m : List (Str × Str)} {ev : Str}
    (hresp : lookupStr l2m respTok = none) :
    ∀ (evs : List PyVal) (st : AggState),
      (∀ e ∈ evs, hasLabelB e = false) →
      (∀ e ∈ evs, isDict e = true) →
      aggRubricFold l2m ev st evs = .ok st := by
  intro evs
  induction evs with
  | nil => intro st _ _; rfl
  | cons e rest ih =>
    intro st hnl hdict
    have hde : isDict e = true := hdict e (List.mem_cons_self _ _)
    cases e with
    | vdict d' =>
      have hnd : dictHas d' ("response_label".toList) = false := by
        simpa [hasLabelB] using hnl _ (List.mem_cons_self _ _)
      unfold aggRubricFold
      have hentry : aggRubricEntry l2m ev st (.vdict d') = .ok st := by
        unfold aggRubricEntry
        dsimp only
        have hlabel : respTok ++ pyStr (dictGetD d' ("response_label".toList) (.vstr [])) =
            respTok := by
          unfold dictGetD
          rw [dictGet?_eq_none_of_not_has hnd]
          simp [pyStr]
        rw [hlabel, hresp]
      rw [hentry]
      exact ih st (fun e' he' => hnl e' (List.mem_cons_of_mem _ he'))
        (fun e' he' => hdict e' (List.mem_cons_of_mem _ he'))
    | vnone => simp [isDict] at hde
    | vbool b => simp [isDict] at hde
    | vnum q => simp [isDict] at hde
    | vstr s => simp [isDict] at hde
    | vlist l => simp [isDict] at hde

/-- C4 (amended): when the structured parse succeeds but yields no entry
with a response-label field, the participant's parsed ordinal ranking does
fall back to the text-ranking parse — but the Round-2 output still carries
the parsed rubric, and whenever that rubric array is non-empty, the
aggregate scorer takes the rubric branch (which contributes nothing for
label-less entries) instead of the ordinal fallback; the ordinal fallback is
used only when the carried rubric is absent or empty. -/
theorem C4_amended_rubric_still_carried :
    ∀ (loads : Str → Option PyVal) (model text : Str)
      (d : List (Str × PyVal)) (evs : List PyVal),
      loads (cleanText text) = some (.vdict d) →
      dictGet? d ("evaluations".toList) = some (.vlist evs) →
      (∀ ev ∈ evs, hasLabelB ev = false) →
      (processReply loads model text).rubric = some (.vlist evs) ∧
      (processReply loads model text).parsed_ranking = parse_ranking_from_text text ∧
      (evs ≠ [] → rubricTruthy (processReply loads model text) = true) ∧
      (evs ≠ [] → ∀ (l2m : List (Str × Str)) (n : Nat) (st : AggState),
        (∀ ev ∈ evs, isDict ev = true) →
        lookupStr l2m respTok = none →
        aggStep l2m n st (processReply loads model text) = .ok st) := by
  intro loads model text d evs hload hevs hnl
  obtain ⟨hrub, hrank, hmod, hparsedOk, hparsedErr⟩ := processReply_components hload hevs
  have hparsed : (processReply loads model text).parsed_ranking =
      parse_ranking_from_text text := by
    cases hrr : rubricRanking (.vlist evs) with
    | error e => exact hparsedErr e hrr
    | ok toks =>
      have htoks : toks = [] := by
        unfold rubricRanking at hrr
        dsimp only at hrr
        cases hks : keysOfEvs evs with
        | error e =>
          rw [hks] at hrr
          exact absurd hrr (by simp)
        | ok ks =>
          rw [hks] at hrr
          injection hrr with h2
          rw [← h2]
          rw [List.filterMap_eq_nil_iff]
          intro p hp
          have hpz : p ∈ evs.zip ks := (List.mem_insertionSort _).mp hp
          have hp1 : p.1 ∈ evs := by
            obtain ⟨a, b⟩ := p
            exact (List.of_mem_zip hpz).1
          have hnlp := hnl p.1 hp1
          cases hp1v : p.1 with
          | vdict d' =>
            rw [hp1v] at hnlp
            simp only [hasLabelB] at hnlp
            simp [entryToken?, hp1v]
            exact hnlp
          | vnone => simp [entryToken?, hp1v]
          | vbool b => simp [entryToken?, hp1v]
          | vnum q => simp [entryToken?, hp1v]
          | vstr s => simp [entryToken?, hp1v]
          | vlist l => simp [entryToken?, hp1v]
      rw [hparsedOk toks hrr, htoks]
      rfl
  have htr : evs ≠ [] → rubricTruthy (processReply loads model text) = true := by
    intro hne
    unfold rubricTruthy
    rw [hrub]
    cases evs with
    | nil => exact absurd rfl hne
    | cons e rest => simp [pyTruthy]
  refine ⟨hrub, hparsed, htr, ?_⟩
  intro hne l2m n st hdict hresp
  unfold aggStep
  rw [if_pos (htr hne), hrub]
  exact aggRubricFold_nolabel hresp evs st hnl hdict

set_option maxRecDepth 40000 in
/-- C4 fails on the code: a reply whose structured parse succeeds with an
`evaluations` array whose (single) entry has no response-label field still
*carries the rubric* in its Round-2 output, and the aggregate scorer takes
the rubric branch for it (yielding no score at all) even though its parsed
ordinal ranking — obtained from the text parse — names `Response A`, which
the ordinal fallback rule would have scored. -/
theorem C4_counterexample :
    ((processReply
        (fun _ => some (.vdict [("evaluations".toList,
            .vlist [.vdict [("accuracy".toList, .vnum 5)]]),
          ("note".toList, .vstr ("FINAL RANKING:\n1. Response A".toList))]))
        ("model_B".toList)
        ("\x7b\"evaluations\": [\x7b\"accuracy\": 5\x7d], \"note\": \"FINAL RANKING:\\n1. Response A\"\x7d".toList)).rubric).isSome = true ∧
    (processReply
        (fun _ => some (.vdict [("evaluations".toList,
            .vlist [.vdict [("accuracy".toList, .vnum 5)]]),
          ("note".toList, .vstr ("FINAL RANKING:\n1. Response A".toList))]))
        ("model_B".toList)
        ("\x7b\"evaluations\": [\x7b\"accuracy\": 5\x7d], \"note\": \"FINAL RANKING:\\n1. Response A\"\x7d".toList)).parsed_ranking =
      ["Response A".toList] ∧
    rubricTruthy (processReply
        (fun _ => some (.vdict [("evaluations".toList,
            .vlist [.vdict [("accuracy".toList, .vnum 5)]]),
          ("note".toList, .vstr ("FINAL RANKING:\n1. Response A".toList))]))
        ("model_B".toList)
        ("\x7b\"evaluations\": [\x7b\"accuracy\": 5\x7d], \"note\": \"FINAL RANKING:\\n1. Response A\"\x7d".toList)) = true ∧
    calculate_aggregate_rankings
        [processReply
          (fun _ => some (.vdict [("evaluations".toList,
              .vlist [.vdict [("accuracy".toList, .vnum 5)]]),
            ("note".toList, .vstr ("FINAL RANKING:\n1. Response A".toList))]))
          ("model_B".toList)
          ("\x7b\"evaluations\": [\x7b\"accuracy\": 5\x7d], \"note\": \"FINAL RANKING:\\n1. Response A\"\x7d".toList)]
        [("Response A".toList, "model_A".toList)] = .ok [] ∧
    effRanking (processReply
        (fun _ => some (.vdict [("evaluations".toList,
            .vlist [.vdict [("accuracy".toList, .vnum 5)]]),
          ("note".toList, .vstr ("FINAL RANKING:\n1. Response A".toList))]))
        ("model_B".toList)
        ("\x7b\"evaluations\": [\x7b\"accuracy\": 5\x7d], \"note\": \"FINAL RANKING:\\n1. Response A\"\x7d".toList)) =
      ["Response A".toList] ∧
    lookupStr [("Response A".toList, "model_A".toList)] ("Response A".toList) =
      some ("model_A".toList) := by
  refine ⟨rfl, by decide, rfl, rfl, by decide, by decide⟩

set_option maxRecDepth 40000 in
/-- Witness for the amended C4 at the counterexample reply. -/
theorem C4_amended_witness :
    (processReply
        (fun _ => some (.vdict [("evaluations".toList,
            .vlist [.vdict [("accuracy".toList, .vnum 5)]]),
          ("note".toList, .vstr ("FINAL RANKING:\n1. Response A".toList))]))
        ("model_B".toList)
        ("\x7b\"evaluations\": [\x7b\"accuracy\": 5\x7d], \"note\": \"FINAL RANKING:\\n1. Response A\"\x7d".toList)).rubric =
      some (.vlist [.vdict [("accuracy".toList, .vnum 5)]]) ∧
    (processReply
        (fun _ => some (.vdict [("evaluations".toList,
            .vlist [.vdict [("accuracy".toList, .vnum 5)]]),
          ("note".toList, .vstr ("FINAL RANKING:\n1. Response A".toList))]))
        ("model_B".toList)
        ("\x7b\"evaluations\": [\x7b\"accuracy\": 5\x7d], \"note\": \"FINAL RANKING:\\n1. Response A\"\x7d".toList)).parsed_ranking =
      parse_ranking_from_text
        ("\x7b\"evaluations\": [\x7b\"accuracy\": 5\x7d], \"note\": \"FINAL RANKING:\\n1. Response A\"\x7d".toList) ∧
    ([PyVal.vdict [("accuracy".toList, .vnum 5)]] ≠ [] →
      rubricTruthy (processReply
        (fun _ => some (.vdict [("evaluations".toList,
            .vlist [.vdict [("accuracy".toList, .vnum 5)]]),
          ("note".toList, .vstr ("FINAL RANKING:\n1. Response A".toList))]))
        ("model_B".toList)
        ("\x7b\"evaluations\": [\x7b\"accuracy\": 5\x7d], \"note\": \"FINAL RANKING:\\n1. Response A\"\x7d".toList)) = true) ∧
    ([PyVal.vdict [("accuracy".toList, .vnum 5)]] ≠ [] →
      ∀ (l2m : List (Str × Str)) (n : Nat) (st : AggState),
        (∀ ev ∈ [PyVal.vdict [("accuracy".toList, .vnum 5)]], isDict ev = true) →
        lookupStr l2m respTok = none →
        aggStep l2m n st (processReply
          (fun _ => some (.vdict [("evaluations".toList,
              .vlist [.vdict [("accuracy".toList, .vnum 5)]]),
            ("note".toList, .vstr ("FINAL RANKING:\n1. Response A".toList))]))
          ("model_B".toList)
          ("\x7b\"evaluations\": [\x7b\"accuracy\": 5\x7d], \"note\": \"FINAL RANKING:\\n1. Response A\"\x7d".toList)) = .ok st) :=
  C4_amended_rubric_still_carried _ _ _ _ _ rfl rfl (by decide)

/-! C9 and C3: council resolution and the minimum-panel guard. -/

theorem classify_ne_manual (env : Env) (q : Str) :
    classify_query env q ≠ "MANUAL_OVERRIDE".toList := by
  unfold classify_query
  cases env.routerReply with
  | none => decide
  | some text =>
    dsimp only
    cases hf : (COUNCIL_PRESETS.map Prod.fst).find?
        (fun cat => decide (cat <:+: (if (pyUpper (pyStrip text)).contains '\n' = true
          then pyStrip (firstLine (pyUpper (pyStrip text)))
          else pyUpper (pyStrip text)))) with
    | none => decide
    | some cat =>
      dsimp only
      have hmem := List.mem_of_find?_eq_some hf
      have hall : ∀ c ∈ COUNCIL_PRESETS.map Prod.fst, c ≠ "MANUAL_OVERRIDE".toList := by
        decide
      exact hall cat hmem

theorem presetFor_ne_nil (cat : Str) : presetFor cat ≠ [] := by
  unfold presetFor
  cases hf : COUNCIL_PRESETS.find? (fun p => decide (p.1 = cat)) with
  | none => decide
  | some p =>
    dsimp only
    have hmem := List.mem_of_find?_eq_some hf
    have hall : ∀ q ∈ COUNCIL_PRESETS, q.2 ≠ [] := by decide
    exact hall p hmem

/-- C9: resolving the panel with an empty-list override behaves exactly as
if no override were given — the query is classified and the category's
preset panel is returned tagged with the detected category; neither the
empty panel nor the manual-override tag is returned. -/
theorem C9_empty_override_like_none :
    ∀ (env : Env) (q : Str),
      get_council_for_query env q (some []) = get_council_for_query env q none ∧
      (get_council_for_query env q (some [])).2 = classify_query env q ∧
      (get_council_for_query env q (some [])).1 = presetFor (classify_query env q) ∧
      (get_council_for_query env q (some [])).2 ≠ "MANUAL_OVERRIDE".toList ∧
      (get_council_for_query env q (some [])).1 ≠ [] := by
  intro env q
  have he : get_council_for_query env q (some []) =
      (presetFor (classify_query env q), classify_query env q) := by
    unfold get_council_for_query
    simp
  refine ⟨he.trans rfl, by rw [he], by rw [he], ?_, ?_⟩
  · rw [he]
    exact classify_ne_manual env q
  · rw [he]
    exact presetFor_ne_nil _

/-- C3: with fewer than 2 Round-1 successes, the driver aborts before
Rounds 2–3, returning the Round-1 successes, an empty Round-2 list, the
terminal error result, and metadata holding only the detected category. -/
theorem C3_minimum_panel_guard :
    ∀ (env : Env) (q : Str) (ov : Option (List Str)),
      (stage1_collect_responses env (get_council_for_query env q ov).1).length < 2 →
      run_full_council env q ov = .ok
        (stage1_collect_responses env (get_council_for_query env q ov).1, [],
         { model := "error".toList,
           response :=
             "At least two models are required for consensus. Please try again.".toList,
           done := false },
         { label_to_model := none, aggregate_rankings := none,
           detected_category := (get_council_for_query env q ov).2 }) := by
  intro env q ov h
  simp only [run_full_council]
  rw [if_pos h]

set_option maxRecDepth 40000 in
/-- Witness for C3: a session in which every network call fails routes to
the GENERAL panel, collects zero successes and aborts with the terminal
error result. -/
theorem C3_witness :
    (stage1_collect_responses
        ⟨none, fun _ => none, fun _ => none, fun _ => none, []⟩
        (get_council_for_query
          ⟨none, fun _ => none, fun _ => none, fun _ => none, []⟩
          ("hello".toList) none).1).length < 2 ∧
    run_full_council ⟨none, fun _ => none, fun _ => none, fun _ => none, []⟩
        ("hello".toList) none = .ok
      (stage1_collect_responses
          ⟨none, fun _ => none, fun _ => none, fun _ => none, []⟩
          (get_council_for_query
            ⟨none, fun _ => none, fun _ => none, fun _ => none, []⟩
            ("hello".toList) none).1, [],
       { model := "error".toList,
         response :=
           "At least two models are required for consensus. Please try again.".toList,
         done := false },
       { label_to_model := none, aggregate_rankings := none,
         detected_category :=
           (get_council_for_query
             ⟨none, fun _ => none, fun _ => none, fun _ => none, []⟩
             ("hello".toList) none).2 }) :=
  ⟨by decide, C3_minimum_panel_guard _ _ _ (by decide)⟩

/-! C7 and C8: the rating engine. -/

/-- C7: within one (round id, evaluator) group, a pair of subjects with
equal rank positions changes nothing: ratings, win and loss counters, and
all other accumulator state are untouched by that pair. -/
theorem C7_tied_pair_is_noop :
    ∀ (p10 : ℚ → ℚ) (st : EloState) (ra rb : RankRow),
      ra.rank_position = rb.rank_position →
      eloPairStep p10 st ra rb = st ∧
      (eloPairStep p10 st ra rb).elo = st.elo ∧
      (eloPairStep p10 st ra rb).wins = st.wins ∧
      (eloPairStep p10 st ra rb).losses = st.losses := by
  intro p10 st ra rb h
  have he : eloPairStep p10 st ra rb = st := by
    unfold eloPairStep
    rw [if_pos h]
  exact ⟨he, by rw [he], by rw [he], by rw [he]⟩

/-- Witness for C7: the tied pair of one evaluator's ranking leaves a
concrete accumulator untouched. -/
theorem C7_witness :
    eloPairStep (fun _ => 1)
        ⟨[("model_a".toList, 1000)], fun _ => 0, fun _ => 0⟩
        ⟨1, "eve".toList, "model_a".toList, 2⟩
        ⟨1, "eve".toList, "model_b".toList, 2⟩ =
      ⟨[("model_a".toList, 1000)], fun _ => 0, fun _ => 0⟩ :=
  (C7_tied_pair_is_noop (fun _ => 1) _ _ _ (by decide)).1

theorem mem_eloTouch {l : List (Str × ℚ)} {k : Str} {p : Str × ℚ}
    (h : p ∈ l) : p ∈ eloTouch l k := by
  induction l with
  | nil => exact absurd h (by simp)
  | cons q rest ih =>
    obtain ⟨k', v'⟩ := q
    by_cases hk : k' = k
    · subst hk
      simpa [eloTouch] using h
    · simp only [eloTouch, if_neg hk]
      cases h with
      | head => exact List.mem_cons_self _ _
      | tail _ h => exact List.mem_cons_of_mem _ (ih h)

theorem eloTouch_values {l : List (Str × ℚ)} {k : Str}
    (h : ∀ p ∈ l, p.2 = 1000) : ∀ p ∈ eloTouch l k, p.2 = 1000 := by
  induction l with
  | nil =>
    intro p hp
    simp only [eloTouch, List.mem_singleton] at hp
    rw [hp]
  | cons q rest ih =>
    obtain ⟨k', v'⟩ := q
    by_cases hk : k' = k
    · subst hk
      simpa [eloTouch] using h
    · intro p hp
      simp only [eloTouch, if_neg hk] at hp
      cases hp with
      | head => exact h _ (List.mem_cons_self _ _)
      | tail _ hp =>
        exact ih (fun p' hp' => h p' (List.mem_cons_of_mem _ hp')) p hp

theorem eloTouch_mem_key (l : List (Str × ℚ)) (k : Str) :
    ∃ v, (k, v) ∈ eloTouch l k := by
  induction l with
  | nil => exact ⟨1000, by simp [eloTouch]⟩
  | cons q rest ih =>
    obtain ⟨k', v'⟩ := q
    by_cases hk : k' = k
    · subst hk
      exact ⟨v', by simp [eloTouch]⟩
    · obtain ⟨v, hv⟩ := ih
      exact ⟨v, by simp only [eloTouch, if_neg hk]; exact List.mem_cons_of_mem _ hv⟩

theorem mem_eloSet_ne {l : List (Str × ℚ)} {k : Str} {v' : ℚ} {p : Str × ℚ}
    (hne : k ≠ p.1) (h : p ∈ l) : p ∈ eloSet l k v' := by
  induction l with
  | nil => exact absurd h (by simp)
  | cons q rest ih =>
    obtain ⟨k2, v2⟩ := q
    by_cases hk : k2 = k
    · subst hk
      simp only [eloSet, if_pos rfl]
      cases h with
      | head => exact absurd rfl hne
      | tail _ h => exact List.mem_cons_of_mem _ h
    · simp only [eloSet, if_neg hk]
      cases h with
      | head => exact List.mem_cons_self _ _
      | tail _ h => exact List.mem_cons_of_mem _ (ih h)

/-- Preservation of an untouched model's accumulator entries across one
pairwise update. -/
theorem eloPairStep_preserve {p10 : ℚ → ℚ} {st : EloState} {ra rb : RankRow}
    {m : Str} (ha : ra.subject_model ≠ m) (hb : rb.subject_model ≠ m) :
    ((m, (1000 : ℚ)) ∈ st.elo → (m, (1000 : ℚ)) ∈ (eloPairStep p10 st ra rb).elo) ∧
    (eloPairStep p10 st ra rb).wins m = st.wins m ∧
    (eloPairStep p10 st ra rb).losses m = st.losses m := by
  unfold eloPairStep
  by_cases htie : ra.rank_position = rb.rank_position
  · rw [if_pos htie]
    exact ⟨fun h => h, rfl, rfl⟩
  · rw [if_neg htie]
    dsimp only
    by_cases hcmp : ra.rank_position < rb.rank_position
    · rw [if_pos hcmp, if_pos hcmp]
      refine ⟨fun h => ?_, ?_, ?_⟩
      · exact mem_eloSet_ne hb (mem_eloSet_ne ha (mem_eloTouch (mem_eloTouch h)))
      · unfold bumpCount
        rw [if_neg (fun he => ha he.symm)]
      · unfold bumpCount
        rw [if_neg (fun he => hb he.symm)]
    · rw [if_neg hcmp, if_neg hcmp]
      refine ⟨fun h => ?_, ?_, ?_⟩
      · exact mem_eloSet_ne ha (mem_eloSet_ne hb (mem_eloTouch (mem_eloTouch h)))
      · unfold bumpCount
        rw [if_neg (fun he => hb he.symm)]
      · unfold bumpCount
        rw [if_neg (fun he => ha he.symm)]

theorem mem_orderedPairs :
    ∀ {g : List RankRow} {pr : RankRow × RankRow}, pr ∈ orderedPairs g →
      pr.1 ∈ g ∧ pr.2 ∈ g := by
  intro g
  induction g with
  | nil => intro pr h; exact absurd h (by simp [orderedPairs])
  | cons x xs ih =>
    intro pr h
    simp only [orderedPairs, List.mem_append] at h
    rcases h with h | h
    · obtain ⟨y, hy, hpr⟩ := List.mem_map.mp h
      rw [← hpr]
      exact ⟨List.mem_cons_self _ _, List.mem_cons_of_mem _ hy⟩
    · obtain ⟨h1, h2⟩ := ih h
      exact ⟨List.mem_cons_of_mem _ h1, List.mem_cons_of_mem _ h2⟩

theorem pairsFold_preserve {p10 : ℚ → ℚ} {m : Str} :
    ∀ (ps : List (RankRow × RankRow)) (st : EloState),
      (∀ pr ∈ ps, pr.1.subject_model ≠ m ∧ pr.2.subject_model ≠ m) →
      ((m, (1000 : ℚ)) ∈ st.elo →
        (m, (1000 : ℚ)) ∈ (ps.foldl (fun s p => eloPairStep p10 s p.1 p.2) st).elo) ∧
      (ps.foldl (fun s p => eloPairStep p10 s p.1 p.2) st).wins m = st.wins m ∧
      (ps.foldl (fun s p => eloPairStep p10 s p.1 p.2) st).losses m = st.losses m := by
  intro ps
  induction ps with
  | nil => exact fun st _ => ⟨fun h => h, rfl, rfl⟩
  | cons pr rest ih =>
    intro st hps
    rw [List.foldl_cons]
    obtain ⟨ha, hb⟩ := hps pr (List.mem_cons_self _ _)
    obtain ⟨e1, e2, e3⟩ := @eloPairStep_preserve p10 st pr.1 pr.2 m ha hb
    obtain ⟨i1, i2, i3⟩ := ih (eloPairStep p10 st pr.1 pr.2)
      (fun pr' hpr' => hps pr' (List.mem_cons_of_mem _ hpr'))
    exact ⟨fun h => i1 (e1 h), i2.trans e2, i3.trans e3⟩

theorem groupsFold_preserve {p10 : ℚ → ℚ} {m : Str} {fetched : List RankRow}
    (hsub : ∀ row ∈ fetched, row.subject_model ≠ m) :
    ∀ (ks : List (ℤ × Str)) (st : EloState),
      ((m, (1000 : ℚ)) ∈ st.elo →
        (m, (1000 : ℚ)) ∈ (ks.foldl (fun s k =>
          eloGroupStep p10 s (fetched.filter (fun r => decide (groupKey r = k)))) st).elo) ∧
      (ks.foldl (fun s k =>
          eloGroupStep p10 s (fetched.filter (fun r => decide (groupKey r = k)))) st).wins m =
        st.wins m ∧
      (ks.foldl (fun s k =>
          eloGroupStep p10 s (fetched.filter (fun r => decide (groupKey r = k)))) st).losses m =
        st.losses m := by
  intro ks
  induction ks with
  | nil => exact fun st => ⟨fun h => h, rfl, rfl⟩
  | cons k rest ih =>
    intro st
    rw [List.foldl_cons]
    have hgrp : ∀ pr ∈ orderedPairs (fetched.filter (fun r => decide (groupKey r = k))),
        pr.1.subject_model ≠ m ∧ pr.2.subject_model ≠ m := by
      intro pr hpr
      obtain ⟨h1, h2⟩ := mem_orderedPairs hpr
      exact ⟨hsub _ (List.mem_of_mem_filter h1), hsub _ (List.mem_of_mem_filter h2)⟩
    obtain ⟨e1, e2, e3⟩ := @pairsFold_preserve p10 m _ st hgrp
    obtain ⟨i1, i2, i3⟩ := ih (eloGroupStep p10 st
      (fetched.filter (fun r => decide (groupKey r = k))))
    refine ⟨fun h => i1 ?_, i2.trans ?_, i3.trans ?_⟩
    · exact e1 h
    · exact e2
    · exact e3

theorem initFold_values :
    ∀ (srows : List Stage1Row) (l : List (Str × ℚ)),
      (∀ p ∈ l, p.2 = 1000) →
      ∀ p ∈ srows.foldl (fun acc r => eloTouch acc r.model) l, p.2 = 1000 := by
  intro srows
  induction srows with
  | nil => exact fun l h => h
  | cons r rest ih =>
    intro l h
    rw [List.foldl_cons]
    exact ih (eloTouch l r.model) (eloTouch_values h)

theorem initFold_mem {m : Str} :
    ∀ (srows : List Stage1Row) (l : List (Str × ℚ)),
      ((∃ v, (m, v) ∈ l) ∨ ∃ r ∈ srows, r.model = m) →
      ∃ v, (m, v) ∈ srows.foldl (fun acc r => eloTouch acc r.model) l := by
  intro srows
  induction srows with
  | nil =>
    intro l h
    rcases h with h | h
    · exact h
    · obtain ⟨r, hr, -⟩ := h
      exact absurd hr (by simp)
  | cons r rest ih =>
    intro l h
    rw [List.foldl_cons]
    rcases h with ⟨v, hv⟩ | ⟨r', hr', hm⟩
    · exact ih _ (Or.inl ⟨v, mem_eloTouch hv⟩)
    · cases hr' with
      | head =>
        cases hm
        obtain ⟨v, hv⟩ := eloTouch_mem_key l r.model
        exact ih _ (Or.inl ⟨v, hv⟩)
      | tail _ hr2 => exact ih _ (Or.inr ⟨r', hr2, hm⟩)

theorem pyRound_1000 : pyRound (1000 : ℚ) = 1000 := by
  unfold pyRound ratFloor
  rw [Rat.num_ofNat, Rat.den_ofNat]
  norm_num

/-- C8: the rating computation is a pure, deterministic function of the
persisted ranking and appearance rows; and a model with no ranking row that
has at least one Round-1 appearance row appears in the output with rating
1000, 0 wins, 0 losses, and its true appearance count. -/
theorem C8_pure_recompute_and_base_entries :
    (∀ (p10 : ℚ → ℚ) (r1 r2 : List RankRow) (s1 s2 : List Stage1Row),
      r1 = r2 → s1 = s2 →
      calculate_elo_ratings p10 r1 s1 = calculate_elo_ratings p10 r2 s2) ∧
    ∀ (p10 : ℚ → ℚ) (rows : List RankRow) (srows : List Stage1Row) (m : Str),
      (∀ row ∈ rows, row.subject_model ≠ m) →
      (∃ r ∈ srows, r.model = m) →
      ({ model := m, elo := 1000, wins := 0, losses := 0,
         appearances := (srows.filter (fun r => decide (r.model = m))).length } :
        EloEntry) ∈ calculate_elo_ratings p10 rows srows := by
  constructor
  · intro p10 r1 r2 s1 s2 h1 h2
    rw [h1, h2]
  · intro p10 rows srows m hsub happ
    simp only [calculate_elo_ratings]
    have hsub' : ∀ row ∈ fetchRankingRows rows, row.subject_model ≠ m := by
      intro row hrow
      unfold fetchRankingRows at hrow
      have h1 : row ∈ rows.filter (fun r => decide (r.rank_position ≠ 99)) :=
        (List.mem_insertionSort _).mp hrow
      exact hsub row (List.mem_of_mem_filter h1)
    have hm0 : (m, (1000 : ℚ)) ∈
        srows.foldl (fun acc r => eloTouch acc r.model) [] := by
      obtain ⟨v, hv⟩ := initFold_mem srows [] (Or.inr happ)
      have h1000 := initFold_values srows [] (by simp) (m, v) hv
      simp only at h1000
      rw [h1000] at hv
      exact hv
    obtain ⟨e1, e2, e3⟩ := @groupsFold_preserve p10 m (fetchRankingRows rows) hsub'
      (groupKeys (fetchRankingRows rows))
      ⟨srows.foldl (fun acc r => eloTouch acc r.model) [], fun _ => 0, fun _ => 0⟩
    have hmem := e1 hm0
    apply (List.mem_insertionSort _).mpr
    apply List.mem_map.mpr
    refine ⟨(m, 1000), hmem, ?_⟩
    dsimp only
    rw [pyRound_1000, e2, e3]

/-- Witness for C8: a model with one appearance row and no ranking rows
appears with the base rating and zero counters. -/
theorem C8_witness :
    ({ model := "m1".toList, elo := 1000, wins := 0, losses := 0,
       appearances := (([⟨1, "m1".toList⟩] : List Stage1Row).filter
         (fun r => decide (r.model = "m1".toList))).length } : EloEntry) ∈
      calculate_elo_ratings (fun _ => 1)
        [⟨1, "eve".toList, "other".toList, 1⟩] [⟨1, "m1".toList⟩] :=
  C8_pure_recompute_and_base_entries.2 _ _ _ _ (by decide) (by decide)
